import Mathlib

/-!
Verification of the jarvis execution-orchestration core against its
natural-language specification.

The development shallowly embeds the relevant TypeScript source:

* `src/utils/historyStore.ts` — the History Ledger (`HistoryStore`):
  pure core of `beginExecution`, `completeExecution`, `updateMetadata`,
  `removeByLogFile` over the in-memory record list (the `save`/`load`
  file I/O is orthogonal to the claims and is not modelled).
* `src/executors/agentManager.ts` — the Target Status Tracker
  (`AgentManager.startAgent` / `stopAgent` and the success/failure
  continuations of `executor.execute`), modelled as a transition system,
  and the Process Execution Engine (`ClaudeCodeExecutor.buildCommand`
  and the `exit`-event handler of `ClaudeCodeExecutor.execute`).
* the `LogViewer` (`parseLogFile`, `parseLine`, `parseMessage`,
  `parsePlainLine`, `extractPayloadSegments`, `extractTokenUsage`,
  `getBaselineTimestamp`, `buildPayload`).

Modelling conventions:

* JavaScript machine integers / `Date` values are modelled as `Int`
  (epoch milliseconds); an ISO-8601 `timestamp` field is modelled by its
  parsed epoch value, with `none` standing both for an absent field and
  for a string `new Date(raw)` turns into `NaN`
  (`LogViewer.parseTimestamp` maps both to `undefined`).
* `JSON.parse` / `JSON.stringify` are host primitives; where behaviour
  depends on them the embedding abstracts them as explicitly passed
  decode functions, and theorems carry their contractual properties
  (e.g. `decode (enc m) = some m`) as hypotheses.
* `Record<string, any>` metadata objects are modelled as association
  lists `List (String × String)`; the object spread
  `{ ...old, ...new }` is modelled by `mergeMeta`.
* JavaScript truthiness is modelled explicitly where the source relies
  on it: an empty string is falsy, an empty array is truthy.
-/

namespace Jarvis

/-! ## History Ledger (`src/utils/historyStore.ts`) -/

/-- `ExecutionTargetType = 'agent' | 'todo'`. -/
inductive ExecutionTargetType where
  | agent
  | todo
deriving DecidableEq, Repr

/-- The `status` field of an `ExecutionHistoryEntry`:
`'running' | 'success' | 'failed' | 'stopped' | 'paused'`. -/
inductive ExecStatus where
  | running
  | success
  | failed
  | stopped
  | paused
deriving DecidableEq, Repr

/-- The `status` field of `ExecutionCompletionOptions`:
`'success' | 'failed' | 'stopped' | 'paused'` (the TypeScript type
excludes `'running'`). -/
inductive TerminalStatus where
  | success
  | failed
  | stopped
  | paused
deriving DecidableEq, Repr

/-- Inclusion of the completion statuses into all statuses. -/
def TerminalStatus.toExec : TerminalStatus → ExecStatus
  | .success => .success
  | .failed => .failed
  | .stopped => .stopped
  | .paused => .paused

/-- `ExecutionHistoryEntry` (historyStore.ts).  Record ids are modelled
as `Nat` (the store generates a fresh UUID per record; freshness is
modelled by a counter at the call site).  Optional string fields that no
claim inspects (`sourceFile`, `versionHash`) are elided. -/
structure ExecutionHistoryEntry where
  id : Nat
  type : ExecutionTargetType
  targetId : String
  label : String
  logFile : String
  status : ExecStatus
  startTime : Int
  endTime : Option Int
  metadata : Option (List (String × String))
deriving DecidableEq, Repr

/-- `ExecutionStartOptions` (historyStore.ts). -/
structure ExecutionStartOptions where
  type : ExecutionTargetType
  targetId : String
  label : String
  logFile : String
  metadata : Option (List (String × String))
deriving DecidableEq, Repr

/-- `ExecutionCompletionOptions` (historyStore.ts). -/
structure ExecutionCompletionOptions where
  status : TerminalStatus
  metadata : Option (List (String × String))
  endTime : Option Int
deriving DecidableEq, Repr

/-- Object spread `{ ...(old || {}), ...new }`: keys of `new` overwrite
same-named keys of `old`, all other keys are preserved. -/
def mergeMeta (old new : List (String × String)) : List (String × String) :=
  old.filter (fun p => (new.lookup p.1).isNone) ++ new

/-- `HistoryStore.beginExecution`: builds a fresh record with
`status: 'running'`, `startTime: new Date()` and no `endTime`, and
pushes it at the end of `this.records`.  `id` is the freshly generated
identifier, `now` the wall-clock time of the call. -/
def beginExecution (id : Nat) (now : Int) (options : ExecutionStartOptions)
    (records : List ExecutionHistoryEntry) :
    List ExecutionHistoryEntry × ExecutionHistoryEntry :=
  let record : ExecutionHistoryEntry :=
    { id := id
      type := options.type
      targetId := options.targetId
      label := options.label
      logFile := options.logFile
      status := .running
      startTime := now
      endTime := none
      metadata := options.metadata.map (fun m => m) }
  (records ++ [record], record)

/-- The in-place mutation `completeExecution` performs on the record
`records.find(entry => entry.id === id)` returned:
`record.status = options.status; record.endTime = options.endTime ?? new
Date().toISOString();` plus the conditional metadata merge. -/
def applyCompletion (now : Int) (options : ExecutionCompletionOptions)
    (r : ExecutionHistoryEntry) : ExecutionHistoryEntry :=
  { r with
    status := options.status.toExec
    endTime := some (options.endTime.getD now)
    metadata :=
      match options.metadata with
      | some m => some (mergeMeta (r.metadata.getD []) m)
      | none => r.metadata }

/-- `HistoryStore.completeExecution`: finds the first record with the
given `id` (JavaScript `Array.find`), mutates it in place, and returns
it; returns `undefined` (here `none`) when no record matches. -/
def completeExecution (now : Int) (id : Nat)
    (options : ExecutionCompletionOptions) :
    List ExecutionHistoryEntry →
      List ExecutionHistoryEntry × Option ExecutionHistoryEntry
  | [] => ([], none)
  | r :: rs =>
    if r.id = id then
      (applyCompletion now options r :: rs, some (applyCompletion now options r))
    else
      let res := completeExecution now id options rs
      (r :: res.1, res.2)

/-- `HistoryStore.updateMetadata`: finds the first record with the given
`id`, merges the metadata in place, returns it; `none` on a miss. -/
def updateMetadata (id : Nat) (metadata : List (String × String)) :
    List ExecutionHistoryEntry →
      List ExecutionHistoryEntry × Option ExecutionHistoryEntry
  | [] => ([], none)
  | r :: rs =>
    if r.id = id then
      let r' := { r with metadata := some (mergeMeta (r.metadata.getD []) metadata) }
      (r' :: rs, some r')
    else
      let res := updateMetadata id metadata rs
      (r :: res.1, res.2)

/-- `HistoryStore.removeByLogFile`: filters out every record whose
`logFile` equals the argument and reports whether anything was
removed. -/
def removeByLogFile (logFile : String) (records : List ExecutionHistoryEntry) :
    List ExecutionHistoryEntry × Bool :=
  let remaining := records.filter (fun record => record.logFile ≠ logFile)
  (remaining, remaining.length < records.length)

/-! ## Target Status Tracker (`src/executors/agentManager.ts`)

`AgentManager.startAgent` / `stopAgent` together with the
success/failure continuations of `await this.executor.execute(...)` are
modelled as a transition system.  Each `execute` call eventually settles
exactly once, at an arbitrary later point of the event-loop schedule;
this is modelled by the `pending` multiset of not-yet-settled runs:
`startAgent` adds `(name, historyId)` to it and the corresponding
`finishSuccess`/`finishFailure` event (the code after / the `catch` of
the `await`) can fire only while its pair is still pending, consuming
it.  `stopAgent` kills the process but does **not** consume the pending
continuation — the killed process still emits its `exit` event, which
rejects the promise and later fires the `catch` branch. -/

/-- `AgentStatus.state`: `'idle' | 'running' | 'error' | 'paused'`. -/
inductive AgentState where
  | idle
  | running
  | error
  | paused
deriving DecidableEq, Repr

/-- `AgentStatus` (src/types): the in-memory per-target status. -/
structure AgentStatus where
  name : String
  state : AgentState
  startTime : Option Int
  error : Option String
  logFile : Option String
  lastCompleted : Option Int
  historyId : Option Nat
deriving DecidableEq, Repr

/-- `Map.set` on an association list: replaces the value of an existing
key, otherwise appends the new pair. -/
def setAssoc (k : String) (v : AgentStatus) :
    List (String × AgentStatus) → List (String × AgentStatus)
  | [] => [(k, v)]
  | (k', v') :: rest =>
    if k' = k then (k, v) :: rest else (k', v') :: setAssoc k v rest

/-- The per-run log file path
`path.join(this.getLogDir(), name, `${timestamp}.jsonl`)`; the
run-unique timestamp component is modelled by the run's fresh id. -/
def agentLogFile (name : String) (id : Nat) : String :=
  name ++ "/" ++ toString id ++ ".jsonl"

/-- The combined state of `AgentManager` (its `statuses` map and the
ledger's record list) plus the bookkeeping of the model: `pending`
holds the not-yet-settled `execute` continuations and `nextId` the
fresh-id counter standing for UUID generation. -/
structure ManagerState where
  agents : List String
  statuses : List (String × AgentStatus)
  records : List ExecutionHistoryEntry
  pending : List (String × Nat)
  nextId : Nat
deriving DecidableEq, Repr

/-- One externally triggered step: a `startAgent` call, the settling of
a run's `execute` promise (resolution → the success branch, rejection →
the `catch` branch of `startAgent`), or a `stopAgent` call. -/
inductive AgentEvent where
  | start (name : String) (now : Int)
  | finishSuccess (name : String) (hid : Nat) (now : Int)
  | finishFailure (name : String) (hid : Nat) (err : String) (now : Int)
  | stop (name : String) (now : Int)
deriving DecidableEq, Repr

/-- Whether an event is a `stopAgent` call. -/
def AgentEvent.isStop : AgentEvent → Bool
  | .stop _ _ => true
  | _ => false

/-- The un-guarded tail of `startAgent`: create the log file path,
`beginExecution` a Running ledger record, set the in-memory status to
`running` with the new `historyId`, and launch `execute` (modelled by
registering the pending continuation). -/
def startRun (s : ManagerState) (name : String) (now : Int) : ManagerState :=
  let hid := s.nextId
  let logFile := agentLogFile name hid
  let res := beginExecution hid now
    { type := .agent, targetId := name, label := name
      logFile := logFile, metadata := none } s.records
  { s with
    records := res.1
    statuses := setAssoc name
      { name := name, state := .running, startTime := some now, error := none
        logFile := some logFile, lastCompleted := none, historyId := some hid }
      s.statuses
    pending := s.pending ++ [(name, hid)]
    nextId := s.nextId + 1 }

/-- `AgentManager.startAgent` up to the `await`: an unknown agent throws
(no state change); a target whose tracked state is `'running'` is
rejected with a warning (no state change); otherwise the run begins. -/
def startStep (s : ManagerState) (name : String) (now : Int) : ManagerState :=
  if name ∈ s.agents then
    match s.statuses.lookup name with
    | some st => if st.state = .running then s else startRun s name now
    | none => startRun s name now
  else s

/-- The success continuation of `startAgent` (after
`await this.executor.execute(...)` resolves): set status `idle`, close
the ledger record as `success`. -/
def finishSuccessStep (s : ManagerState) (name : String) (hid : Nat)
    (now : Int) : ManagerState :=
  if (name, hid) ∈ s.pending then
    { s with
      pending := s.pending.erase (name, hid)
      statuses := setAssoc name
        { name := name, state := .idle, startTime := none, error := none
          logFile := some (agentLogFile name hid), lastCompleted := some now
          historyId := some hid }
        s.statuses
      records := (completeExecution now hid
        { status := .success, metadata := none, endTime := some now }
        s.records).1 }
  else s

/-- The `catch` branch of `startAgent` (the `execute` promise
rejected): set status `error` with the error text, close the ledger
record as `failed` with the error in the metadata. -/
def finishFailureStep (s : ManagerState) (name : String) (hid : Nat)
    (err : String) (now : Int) : ManagerState :=
  if (name, hid) ∈ s.pending then
    { s with
      pending := s.pending.erase (name, hid)
      statuses := setAssoc name
        { name := name, state := .error, startTime := none, error := some err
          logFile := some (agentLogFile name hid), lastCompleted := some now
          historyId := some hid }
        s.statuses
      records := (completeExecution now hid
        { status := .failed, metadata := some [("error", err)]
          endTime := some now }
        s.records).1 }
  else s

/-- `AgentManager.stopAgent`: a target that is not tracked as running is
a warning no-op; otherwise the process is killed (`executor.stop`), the
status set to `idle` and — when a `historyId` is tracked — the ledger
record closed as `stopped`.  The killed run's `execute` continuation
remains pending: its `exit` event will still fire later. -/
def stopStep (s : ManagerState) (name : String) (now : Int) : ManagerState :=
  match s.statuses.lookup name with
  | some st =>
    if st.state = .running then
      let s1 := { s with
        statuses := setAssoc name
          { name := name, state := .idle, startTime := none, error := none
            logFile := st.logFile, lastCompleted := some now
            historyId := st.historyId }
          s.statuses }
      match st.historyId with
      | some hid =>
        { s1 with
          records := (completeExecution now hid
            { status := .stopped, metadata := none, endTime := some now }
            s1.records).1 }
      | none => s1
    else s
  | none => s

/-- The transition function of the Status Tracker model. -/
def step (s : ManagerState) : AgentEvent → ManagerState
  | .start name now => startStep s name now
  | .finishSuccess name hid now => finishSuccessStep s name hid now
  | .finishFailure name hid err now => finishFailureStep s name hid err now
  | .stop name now => stopStep s name now

/-- Initial state: loaded agents, no statuses, empty ledger. -/
def initState (agents : List String) : ManagerState :=
  { agents := agents, statuses := [], records := [], pending := [], nextId := 0 }

/-- Run a sequence of events from the initial state. -/
def runEvents (agents : List String) (events : List AgentEvent) : ManagerState :=
  events.foldl step (initState agents)

/-- Ids of ledger records with `status = 'running'` for the logical
target `(agent, name)`, in ledger order. -/
def runningIdsOf (records : List ExecutionHistoryEntry) (name : String) :
    List Nat :=
  (records.filter (fun r =>
    decide (r.type = .agent ∧ r.targetId = name ∧ r.status = .running))).map
    (fun r => r.id)

/-- `runningIdsOf` of a manager state's ledger. -/
def runningIdsFor (s : ManagerState) (name : String) : List Nat :=
  runningIdsOf s.records name

/-- Ids of pending continuations registered for a target name. -/
def pendingIdsOf (pending : List (String × Nat)) (name : String) : List Nat :=
  (pending.filter (fun p => decide (p.1 = name))).map (fun p => p.2)

/-- `pendingIdsOf` of a manager state. -/
def pendingFor (s : ManagerState) (name : String) : List Nat :=
  pendingIdsOf s.pending name

/-- The history id of the run the tracker currently shows as running for
a target, if any. -/
def trackedRun (s : ManagerState) (name : String) : Option Nat :=
  match s.statuses.lookup name with
  | some st => if st.state = .running then st.historyId else none
  | none => none

/-- Whether the tracker's state for a target is `'running'`. -/
def statusIsRunning (s : ManagerState) (name : String) : Bool :=
  match s.statuses.lookup name with
  | some st => decide (st.state = .running)
  | none => false

/-! ## Process Execution Engine (`ClaudeCodeExecutor`)

`buildCommand` and the `exit`-event handler of `execute`, as pure
functions of their inputs. -/

/-- `ClaudeCommandOptions` (src/types).  Field names mirror the quoted
TypeScript keys: `'--dangerously-skip-permissions'` ↦
`dangerouslySkipPermissions`, `'--add-dir'` ↦ `addDir`,
`'--output-format'` ↦ `outputFormat`, `'--mcp-config'` ↦ `mcpConfig`. -/
structure ClaudeCommandOptions where
  dangerouslySkipPermissions : Option Bool
  addDir : Option (List String)
  verbose : Option Bool
  print : Option Bool
  outputFormat : Option String
  model : Option String
  mcpConfig : Option String
deriving DecidableEq, Repr

/-- The `jarvis.claude.defaultParams` configuration object (untyped in
the source; every field may be absent).  `'permission-mode'` ↦
`permissionMode`, `'add-dirs'` ↦ `addDirs`, `'output-format'` ↦
`outputFormat`, `'mcp-config'` ↦ `mcpConfig`. -/
structure DefaultParams where
  permissionMode : Option String
  addDirs : Option (List String)
  verbose : Option Bool
  print : Option Bool
  outputFormat : Option String
  model : Option String
  mcpConfig : Option String
deriving DecidableEq, Repr

/-- JavaScript truthiness of an optional boolean (`undefined` falsy). -/
def optBoolTruthy : Option Bool → Bool
  | some b => b
  | none => false

/-- JavaScript truthiness of an optional string: `undefined` and the
empty string are falsy; returns the value when truthy. -/
def truthyStr : Option String → Option String
  | some s => if s = "" then none else some s
  | none => none

/-- `a || b` on optional strings under JavaScript truthiness. -/
def jsStrOr (a b : Option String) : Option String :=
  (truthyStr a) <|> (truthyStr b)

/-- `ClaudeCodeExecutor.buildCommand`.  `executable` and
`defaultParams` model the `jarvis.claude` configuration reads and
`workspaceRoot` models `vscode.workspace.workspaceFolders?.[0]`.
JavaScript truthiness is preserved: `options?.['--add-dir'] ||
defaultParams['add-dirs'] || []` treats any *present* per-call array —
even an empty one — as truthy, so a present per-call array is used
as-is and the default list is ignored; an empty string option is falsy
and falls through. -/
def buildCommand (executable : String) (defaultParams : DefaultParams)
    (workspaceRoot : Option String)
    (options : Option ClaudeCommandOptions) : List String :=
  let command := [executable]
  let command :=
    if optBoolTruthy (options.bind (fun o => o.dangerouslySkipPermissions))
        || decide (defaultParams.permissionMode = some "always-allow") then
      command ++ ["--dangerously-skip-permissions"]
    else command
  let dirs :=
    match options.bind (fun o => o.addDir) with
    | some l => l
    | none =>
      match defaultParams.addDirs with
      | some l => l
      | none => []
  let dirs :=
    match workspaceRoot with
    | some w => if w ∈ dirs then dirs else dirs ++ [w]
    | none => dirs
  let command := command ++ dirs.flatMap (fun dir => ["--add-dir", dir])
  let command :=
    if optBoolTruthy ((options.bind (fun o => o.verbose)) <|> defaultParams.verbose) then
      command ++ ["--verbose"]
    else command
  let command :=
    if optBoolTruthy ((options.bind (fun o => o.print)) <|> defaultParams.print) then
      command ++ ["--print"]
    else command
  let outputFormat :=
    (jsStrOr (options.bind (fun o => o.outputFormat)) defaultParams.outputFormat).getD
      "stream-json"
  let command := command ++ ["--output-format", outputFormat]
  let command :=
    match jsStrOr (options.bind (fun o => o.model)) defaultParams.model with
    | some m => command ++ ["--model", m]
    | none => command
  let command :=
    match jsStrOr (options.bind (fun o => o.mcpConfig)) defaultParams.mcpConfig with
    | some m => command ++ ["--mcp-config", m]
    | none => command
  command

/-- `recordRecentMessage` inside `execute`: skips `undefined` and
whitespace-only fragments, pushes the trimmed text and keeps only the
most recent 10 fragments. -/
def recordRecentMessage (recentMessages : List String)
    (message : Option String) : List String :=
  match message with
  | none => recentMessages
  | some m =>
    let trimmed := m.trim
    if trimmed = "" then recentMessages
    else
      let pushed := recentMessages ++ [trimmed]
      if pushed.length > 10 then pushed.drop 1 else pushed

/-- `recentMessages.slice(-3)`: the last `n` elements. -/
def lastN (n : Nat) (l : List String) : List String :=
  l.drop (l.length - n)

/-- Truthiness of `lastErrorMessage?.trim()`: the message is defined
and nonempty after trimming. -/
def trimTruthy : Option String → Bool
  | some s => decide (s.trim ≠ "")
  | none => false

/-- JavaScript `!s` for an optional string: true when the string is
`undefined` or empty. -/
def optStrFalsy : Option String → Bool
  | some s => decide (s = "")
  | none => true

/-- The outcome of one `execute` run as decided by the
`childProc.on('exit', ...)` handler: promise resolution or rejection
with a composed error message. -/
inductive ExitOutcome where
  | resolved
  | rejected (message : String)
deriving DecidableEq, Repr

/-- The `details` array built by the `exit` handler for a nonzero (or
`null`) exit code, as the sequence of `details.push(...)` steps:
header with exit code, the last stream error (when its trim is
nonempty), the buffered stderr (when nonempty after trimming), a
sample of the most recent output fragments (only when neither an error
message nor stderr text exists), and finally the log file path. -/
def exitDetails (code : Option Int) (id : String)
    (lastErrorMessage : Option String) (stderrChunks : List String)
    (recentMessages : List String) (actualLogFile : String) : List String :=
  let codeText :=
    match code with
    | some c => toString c
    | none => "unknown"
  let details :=
    ["Claude Code execution failed with code " ++ codeText ++ " for: " ++ id]
  let details :=
    if trimTruthy lastErrorMessage then
      details ++ ["Claude reported: " ++ (lastErrorMessage.getD "").trim]
    else details
  let stderrText := (String.join stderrChunks).trim
  let details :=
    if stderrText ≠ "" then details ++ ["stderr: " ++ stderrText]
    else details
  let details :=
    if optStrFalsy lastErrorMessage ∧ stderrText = "" ∧ recentMessages ≠ [] then
      details ++
        ["Recent output: " ++ String.intercalate " | " (lastN 3 recentMessages)]
    else details
  details ++ ["Log file: " ++ actualLogFile]

/-- The `exit` handler: code 0 resolves the `execute` promise; any
other code (including `null`) rejects it with the joined details. -/
def exitOutcome (code : Option Int) (id : String)
    (lastErrorMessage : Option String) (stderrChunks : List String)
    (recentMessages : List String) (actualLogFile : String) : ExitOutcome :=
  if code = some 0 then .resolved
  else
    .rejected (String.intercalate "\n"
      (exitDetails code id lastErrorMessage stderrChunks recentMessages
        actualLogFile))

/-! ## Live Log Viewer (`LogViewer`)

The stream-message parser and view-model builder:
`parseLogFile`, `parseLine`, `parseMessage`, `parsePlainLine`,
`extractPayloadSegments`, `extractTokenUsage`, `getBaselineTimestamp`
and the entry-mapping part of `buildPayload`.

A log-file text is modelled as its character sequence (`List Char`);
`fs.readFileSync` content is that sequence.  The split on `/\r?\n/`
followed by `trim` is modelled as a split on `'\n'` followed by
`trim` — the two agree on every input, because the only difference,
a carriage return left at the end of a fragment, is removed by the
trim. -/

/-- A JSON value, for the untyped (`any`) parts of a stream message. -/
inductive JsonValue where
  | null
  | bool (b : Bool)
  | num (n : Int)
  | str (s : String)
  | arr (items : List JsonValue)
  | obj (fields : List (String × JsonValue))
deriving Repr

/-- JavaScript truthiness of a JSON value. -/
def jsonTruthy : JsonValue → Bool
  | .null => false
  | .bool b => b
  | .num n => decide (n ≠ 0)
  | .str s => decide (s ≠ "")
  | .arr _ => true
  | .obj _ => true

/-- JavaScript `String(content)` coercion of a JSON value: strings
unchanged, numbers/booleans/null printed, arrays joined with commas,
plain objects as `[object Object]`. -/
def jsToString : JsonValue → String
  | .null => "null"
  | .bool b => if b then "true" else "false"
  | .num n => toString n
  | .str s => s
  | .arr items => String.intercalate "," (jsToStringList items)
  | .obj _ => "[object Object]"
where
  /-- `String()` of each array element. -/
  jsToStringList : List JsonValue → List String
  | [] => []
  | v :: vs => jsToString v :: jsToStringList vs

/-- One hexadecimal digit. -/
def hexDigit (n : Nat) : Char :=
  if n < 10 then Char.ofNat (48 + n) else Char.ofNat (87 + (n - 10))

/-- Four-digit hexadecimal rendering for `\uXXXX` escapes. -/
def hex4 (n : Nat) : String :=
  String.mk [hexDigit ((n / 4096) % 16), hexDigit ((n / 256) % 16),
    hexDigit ((n / 16) % 16), hexDigit (n % 16)]

/-- `JSON.stringify` escaping of one character inside a string
literal. -/
def escapeJsonChar (c : Char) : String :=
  if c = '"' then "\\\""
  else if c = '\\' then "\\\\"
  else if c = '\n' then "\\n"
  else if c = '\r' then "\\r"
  else if c = '\t' then "\\t"
  else if c.toNat < 32 then "\\u" ++ hex4 c.toNat
  else String.singleton c

/-- `JSON.stringify` escaping of a string body. -/
def escapeJsonString (s : String) : String :=
  String.join (s.data.map escapeJsonChar)

mutual

/-- `JSON.stringify` of a JSON value.  The source pretty-prints with a
2-space indent (`JSON.stringify(v, null, 2)`); the embedding renders
compactly — no claim inspects the layout of these rendered strings,
only whether a nonempty segment is produced. -/
def stringifyJson : JsonValue → String
  | .null => "null"
  | .bool b => if b then "true" else "false"
  | .num n => toString n
  | .str s => "\"" ++ escapeJsonString s ++ "\""
  | .arr items => "[" ++ String.intercalate "," (stringifyArr items) ++ "]"
  | .obj fields =>
    "\x7b" ++ String.intercalate "," (stringifyObj fields) ++ "\x7d"

/-- Renderings of array elements. -/
def stringifyArr : List JsonValue → List String
  | [] => []
  | v :: vs => stringifyJson v :: stringifyArr vs

/-- Renderings of object fields. -/
def stringifyObj : List (String × JsonValue) → List String
  | [] => []
  | (k, v) :: fs =>
    ("\"" ++ escapeJsonString k ++ "\":" ++ stringifyJson v) :: stringifyObj fs

end

/-- One element of `message.message.content`
(`'text' | 'tool_use' | 'tool_result'` plus its fields). -/
structure ContentItem where
  type : String
  text : Option String
  name : Option String
  input : Option JsonValue
  content : Option JsonValue
deriving Repr

/-- One element of `message.mcp_servers`. -/
structure McpServer where
  name : String
  status : String
deriving DecidableEq, Repr

/-- A token-usage object; the parser probes these five field names in
order. -/
structure UsageInfo where
  output_tokens : Option Int
  total_tokens : Option Int
  tokens : Option Int
  outputTokens : Option Int
  totalTokens : Option Int
deriving DecidableEq, Repr

/-- `ClaudeJsonMessage` (src/types) as decoded from one log line.
`messageContent` is `message?.content`; `content` / `result` are the
untyped fields; `timestamp` is the ISO-8601 timestamp modelled by its
epoch value, with `none` standing both for an absent field and for a
string that `new Date(raw)` turns into `NaN` (`parseTimestamp` maps
both to `undefined`).  `metaTokenUsage` / `metaTokenUsageSnake` are
`metadata?.tokenUsage` / `metadata?.token_usage`. -/
structure ClaudeJsonMessage where
  type : String
  messageContent : Option (List ContentItem)
  content : Option JsonValue
  result : Option JsonValue
  error : Option String
  timestamp : Option Int
  tools : Option (List JsonValue)
  model : Option String
  mcp_servers : Option (List McpServer)
  usage : Option UsageInfo
  metaTokenUsage : Option UsageInfo
  metaTokenUsageSnake : Option UsageInfo
deriving Repr

/-- Reconstruction of the JSON object a message was decoded from, for
the `default` branch's `JSON.stringify(message, null, 2)` (absent
optional fields are omitted, as in the original object). -/
def msgJson (m : ClaudeJsonMessage) : JsonValue :=
  .obj ([("type", .str m.type)]
    ++ (match m.error with
        | some e => [("error", JsonValue.str e)]
        | none => [])
    ++ (match m.result with
        | some v => [("result", v)]
        | none => [])
    ++ (match m.content with
        | some v => [("content", v)]
        | none => [])
    ++ (match m.model with
        | some s => [("model", JsonValue.str s)]
        | none => [])
    ++ (match m.timestamp with
        | some t => [("timestamp", JsonValue.num t)]
        | none => []))

/-- The host JSON facilities the parser relies on, abstracted:
`decode` models `JSON.parse` of one log line shaped as a stream
message (`none` means the parse — or the shape-dependent extraction
inside the same `try` block — threw), `decodeAny` models `JSON.parse`
of a string embedded in a payload (used by `isLikelyJson` and
`prettyPrintJson`). -/
structure JsonHost where
  decode : String → Option ClaudeJsonMessage
  decodeAny : String → Option JsonValue

/-- One rendered payload segment.  The source leaves `isCode`
undefined when pushing `{ text }`; `undefined` and `false` are
identified. -/
structure LogPayloadSegment where
  text : String
  isCode : Bool
deriving DecidableEq, Repr

/-- `ParsedLogEntry` (logViewer). -/
structure ParsedLogEntry where
  index : Nat
  badge : String
  status : String
  timestamp : Option Int
  tokens : Option Int
  payload : List LogPayloadSegment
  raw : String
deriving Repr

/-- `LogEntryViewModel` (webviews/shared/logMessages), the rendering
projection with the two derived timing fields. -/
structure LogEntryViewModel where
  index : Nat
  badge : String
  status : String
  timestamp : Option Int
  relativeToStartMs : Option Int
  deltaPreviousMs : Option Int
  tokens : Option Int
  payload : List LogPayloadSegment
deriving Repr

/-- The `append` helper of `extractPayloadSegments`: pushes a segment
only when the text is truthy and nonempty after trimming; the pushed
text is trimmed. -/
def appendSegment (segments : List LogPayloadSegment) (text : Option String)
    (isCode : Bool) : List LogPayloadSegment :=
  match text with
  | some t =>
    if t ≠ "" ∧ t.trim ≠ "" then segments ++ [⟨t.trim, isCode⟩] else segments
  | none => segments

/-- `formatMcpServers`. -/
def formatMcpServers (servers : List McpServer) : String :=
  String.intercalate " | "
    (servers.map (fun server => server.name ++ " (" ++ server.status ++ ")"))

/-- `/^\s*\d+→/` removal: strips a leading run of whitespace followed
by at least one digit and an arrow. -/
def stripLineNumberArrow (line : String) : String :=
  let cs := line.data
  let afterWs := cs.dropWhile (fun c => c.isWhitespace)
  let digits := afterWs.takeWhile (fun c => c.isDigit)
  let afterDigits := afterWs.dropWhile (fun c => c.isDigit)
  match digits, afterDigits with
  | _ :: _, c :: rest => if c = '→' then String.mk rest else line
  | _, _ => line

/-- `/^﻿/` removal: strips a leading byte-order mark. -/
def stripBom (line : String) : String :=
  match line.data with
  | c :: rest => if c = '﻿' then String.mk rest else line
  | [] => line

/-- Whether a string contains at least one occurrence of a pattern
(JavaScript `/pat/.test(s)` for a literal pattern). -/
def containsPattern (s pattern : String) : Bool :=
  decide (2 ≤ (s.splitOn pattern).length)

/-- `formatToolResult`: coerces the tool-result content to a string,
restores literal `\n` sequences when no real newline is present,
unifies CRLF/CR line breaks, strips BOMs and `NNN→` line-number
prefixes per line, fixes `\"` and `\t` escapes, and trims. -/
def formatToolResult (content : JsonValue) : String :=
  let text := jsToString content
  let text :=
    if ¬ (containsPattern text "\n") ∧ containsPattern text "\\n" then
      text.replace "\\n" "\n"
    else text
  let text := (text.replace "\r\n" "\n").replace "\r" "\n"
  let lines := text.splitOn "\n"
  let cleaned := lines.map (fun line => stripLineNumberArrow (stripBom line))
  let result := String.intercalate "\n" cleaned
  let result := (result.replace "\\\"" "\"").replace "\\t" "\t"
  result.trim

/-- `isLikelyJson`: nonempty, brace- or bracket-delimited after
trimming, and accepted by `JSON.parse`. -/
def isLikelyJson (host : JsonHost) (text : String) : Bool :=
  if text = "" then false
  else
    let trimmed := text.trim
    if ¬ ((trimmed.startsWith "\x7b" ∧ trimmed.endsWith "\x7d")
        ∨ (trimmed.startsWith "[" ∧ trimmed.endsWith "]")) then false
    else (host.decodeAny trimmed).isSome

/-- `prettyPrintJson`: re-render a JSON string, `undefined` when the
parse fails. -/
def prettyPrintJson (host : JsonHost) (text : String) : Option String :=
  (host.decodeAny text).map stringifyJson

/-- The `assistant`/`user` branch body of `extractPayloadSegments`,
one content item at a time. -/
def segmentsOfItem (host : JsonHost) (segments : List LogPayloadSegment)
    (item : ContentItem) : List LogPayloadSegment :=
  if item.type = "text" then
    match item.text with
    | some t =>
      if t ≠ "" then
        let trimmed := t.trim
        let looksJson := isLikelyJson host trimmed
        appendSegment segments
          (some (if looksJson then (prettyPrintJson host trimmed).getD trimmed
                 else trimmed))
          looksJson
      else segments
    | none => segments
  else if item.type = "tool_use" then
    let segments :=
      appendSegment segments (some ("Tool call → " ++ item.name.getD "undefined"))
        false
    let rendered :=
      match item.input with
      | some v => if jsonTruthy v then some (stringifyJson v) else none
      | none => none
    appendSegment segments rendered true
  else if item.type = "tool_result" then
    let rendered :=
      match item.content with
      | some v => if jsonTruthy v then some (formatToolResult v) else none
      | none => none
    let segments := appendSegment segments (some "Tool result") false
    appendSegment segments rendered false
  else segments

/-- The `system` branch body for one element of `message.content`:
strings are appended as text, objects with a `text` member contribute
`String(entry.text)`, everything else is rendered as JSON. -/
def segmentOfSystemEntry (segments : List LogPayloadSegment)
    (entry : JsonValue) : List LogPayloadSegment :=
  match entry with
  | .str s => appendSegment segments (some s) false
  | .obj fields =>
    match fields.lookup "text" with
    | some v => appendSegment segments (some (jsToString v)) false
    | none => appendSegment segments (some (stringifyJson entry)) true
  | e => appendSegment segments (some (stringifyJson e)) true

/-- The `segments` local of `extractPayloadSegments` right before the
final fallback: the segments the type-directed branches collected. -/
def extractPayloadSegmentsCore (host : JsonHost) (m : ClaudeJsonMessage) :
    List LogPayloadSegment :=
  let segments : List LogPayloadSegment := []
  let segments :=
    if m.type = "assistant" ∨ m.type = "user" then
      (m.messageContent.getD []).foldl (segmentsOfItem host) segments
    else if m.type = "system" then
      let segments :=
        match m.content with
        | some (.arr entries) => entries.foldl segmentOfSystemEntry segments
        | some (.str s) => appendSegment segments (some s) false
        | _ => segments
      let segments :=
        match m.tools with
        | some ts => appendSegment segments (some ("Tools: " ++ toString ts.length)) false
        | none => segments
      let segments :=
        match truthyStr m.model with
        | some md => appendSegment segments (some ("Model: " ++ md)) false
        | none => segments
      match m.mcp_servers with
      | some servers =>
        appendSegment segments (some ("MCP Servers: " ++ formatMcpServers servers))
          false
      | none => segments
    else if m.type = "result" then
      match m.result with
      | some (.str s) =>
        let pretty := prettyPrintJson host s
        appendSegment segments (some (pretty.getD s)) pretty.isSome
      | some v =>
        if jsonTruthy v then appendSegment segments (some (stringifyJson v)) true
        else segments
      | none => segments
    else if m.type = "error" then
      appendSegment segments m.error false
    else
      appendSegment segments (some (stringifyJson (msgJson m))) true
  segments

/-- `extractPayloadSegments`: classifies by the `type` discriminator
and collects payload segments; when nothing was extracted the
placeholder `(no content)` segment is substituted. -/
def extractPayloadSegments (host : JsonHost) (m : ClaudeJsonMessage) :
    List LogPayloadSegment :=
  let segments := extractPayloadSegmentsCore host m
  if segments.length > 0 then segments else [⟨"(no content)", false⟩]

/-- `extractTokenUsage`: first token-usage object found at
`usage` / `metadata.tokenUsage` / `metadata.token_usage`, then the
first numeric candidate among the five known field names. -/
def extractTokenUsage (m : ClaudeJsonMessage) : Option Int :=
  match m.usage <|> m.metaTokenUsage <|> m.metaTokenUsageSnake with
  | some u =>
    u.output_tokens <|> u.total_tokens <|> u.tokens <|> u.outputTokens
      <|> u.totalTokens
  | none => none

/-- `getBadge`: the display badge for each message kind; an unknown
`type` is shown as `String(message.type)`. -/
def getBadge (m : ClaudeJsonMessage) : String :=
  if m.type = "assistant" then "🤖 Assistant"
  else if m.type = "user" then "👤 User"
  else if m.type = "system" then "⚙️ System"
  else if m.type = "result" then "📦 Result"
  else if m.type = "error" then "❗ Error"
  else m.type

/-- `parseTimestamp`: with timestamps modelled by their parsed epoch
values, absent and unparseable both already appear as `none`. -/
def parseTimestamp (raw : Option Int) : Option Int := raw

/-- `parseMessage`: the entry built from a successfully decoded
message. -/
def parseMessage (host : JsonHost) (m : ClaudeJsonMessage) (index : Nat)
    (raw : String) : ParsedLogEntry :=
  { index := index
    badge := getBadge m
    status := m.type
    timestamp := parseTimestamp m.timestamp
    tokens := extractTokenUsage m
    payload := extractPayloadSegments host m
    raw := raw }

/-- `parsePlainLine`: the fallback for a line `JSON.parse` rejects —
a System-classified entry wrapping the raw line, timestamped with the
current wall-clock time (`new Date()`), here the explicit `now`. -/
def parsePlainLine (now : Int) (line : String) (index : Nat) : ParsedLogEntry :=
  { index := index
    badge := "⚙️ System"
    status := "system"
    timestamp := some now
    tokens := none
    payload := [⟨line, false⟩]
    raw := line }

/-- `parseLine`: decode the line and build its entry; any throw inside
the `try` block degrades to `parsePlainLine`. -/
def parseLine (host : JsonHost) (now : Int) (line : String) (index : Nat) :
    ParsedLogEntry :=
  match host.decode line with
  | some m => parseMessage host m index line
  | none => parsePlainLine now line index

/-- JavaScript's whitespace class (`trim`, `\s`), modelled by
`Char.isWhitespace`. -/
def isJsWhitespace (c : Char) : Bool := c.isWhitespace

/-- Split a character sequence at every `'\n'`. -/
def splitNl : List Char → List (List Char)
  | [] => [[]]
  | c :: cs =>
    if c = '\n' then [] :: splitNl cs
    else
      match splitNl cs with
      | l :: ls => (c :: l) :: ls
      | [] => [[c]]

/-- `trim` on a character sequence: drop whitespace from both ends. -/
def trimChars (cs : List Char) : List Char :=
  ((cs.dropWhile isJsWhitespace).reverse.dropWhile isJsWhitespace).reverse

/-- `parseLogFile`: empty or whitespace-only content yields no
entries; otherwise the content is split into lines, each line trimmed,
empty lines dropped, and each remaining line parsed with its index. -/
def parseLogFile (host : JsonHost) (now : Int) (content : List Char) :
    List ParsedLogEntry :=
  if trimChars content = [] then []
  else
    let lines := ((splitNl content).map trimChars).filter (fun l => l ≠ [])
    lines.enum.map (fun p => parseLine host now (String.mk p.2) p.1)

/-- Insertion of an integer into a sorted list (ascending). -/
def insertSorted (x : Int) : List Int → List Int
  | [] => [x]
  | y :: ys => if x ≤ y then x :: y :: ys else y :: insertSorted x ys

/-- `Array.sort((a, b) => a - b)`: ascending sort. -/
def sortInts : List Int → List Int
  | [] => []
  | x :: xs => insertSorted x (sortInts xs)

/-- `getBaselineTimestamp`: the valid timestamps of all entries,
sorted ascending, first taken. -/
def getBaselineTimestamp (entries : List ParsedLogEntry) : Option Int :=
  (sortInts (entries.filterMap (fun entry => entry.timestamp))).head?

/-- `x && y ? x.getTime() - y.getTime() : undefined`: the guarded
difference of two optional timestamps. -/
def timeDiff (t other : Option Int) : Option Int :=
  match t, other with
  | some a, some b => some (a - b)
  | _, _ => none

/-- `if (entry.timestamp) previous = entry.timestamp`: the updated
`previous` tracker. -/
def nextPrevious (t previous : Option Int) : Option Int :=
  match t with
  | some v => some v
  | none => previous

/-- The `entries.map(...)` of `buildPayload`, with its running
`previous` timestamp: each entry gets `relativeToStartMs` (timestamp
minus baseline, when both exist) and `deltaPreviousMs` (timestamp
minus the previous timestamped entry's timestamp, when both exist);
a timestamped entry updates `previous`. -/
def buildEntriesAux (baseline : Option Int) :
    Option Int → List ParsedLogEntry → List LogEntryViewModel
  | _, [] => []
  | previous, entry :: rest =>
    { index := entry.index, badge := entry.badge, status := entry.status
      timestamp := entry.timestamp
      relativeToStartMs := timeDiff entry.timestamp baseline
      deltaPreviousMs := timeDiff entry.timestamp previous
      tokens := entry.tokens
      payload := entry.payload }
      :: buildEntriesAux baseline (nextPrevious entry.timestamp previous) rest

/-- The view-model entry list of `buildPayload`. -/
def buildViewEntries (entries : List ParsedLogEntry) : List LogEntryViewModel :=
  buildEntriesAux (getBaselineTimestamp entries) none entries

/-- Modelled from the spec's words for C7 (comparison definition, not
from the source): the timestamp of the *first timestamped entry in the
file*, in file order — the source's `getBaselineTimestamp` instead
takes the minimum timestamp. -/
def firstTimestampInOrder (entries : List ParsedLogEntry) : Option Int :=
  (entries.filterMap (fun entry => entry.timestamp)).head?

/-- The timestamp of the last timestamped entry strictly before index
`i` (the "immediately preceding timestamped entry"). -/
def lastTimestampBefore (entries : List ParsedLogEntry) (i : Nat) : Option Int :=
  ((entries.take i).filterMap (fun entry => entry.timestamp)).getLast?

/-- The log-file content after the engine appends one serialized
message per line (`logStream.write(JSON.stringify(message) + '\n')`),
starting from a fresh, empty file. -/
def logContent (enc : ClaudeJsonMessage → String)
    (msgs : List ClaudeJsonMessage) : List Char :=
  (msgs.map (fun m => (enc m).data ++ ['\n'])).flatten

/-- Recursive minimum of an integer list (the value `sort ascending
then take the first` computes). -/
def minPair? : List Int → Option Int
  | [] => none
  | x :: xs =>
    some (match minPair? xs with
      | none => x
      | some m => min x m)

/-- A message with no extractable payload (a bare `system` line). -/
def sampleSystemMsg : ClaudeJsonMessage :=
  { type := "system", messageContent := none, content := none, result := none
    error := none, timestamp := none, tools := none, model := none
    mcp_servers := none, usage := none, metaTokenUsage := none
    metaTokenUsageSnake := none }

/-- A one-text-fragment assistant message. -/
def sampleAssistantMsg : ClaudeJsonMessage :=
  { type := "assistant"
    messageContent := some [{ type := "text", text := some "hi", name := none
                              input := none, content := none }]
    content := none, result := none, error := none, timestamp := some 1
    tools := none, model := none, mcp_servers := none, usage := none
    metaTokenUsage := none, metaTokenUsageSnake := none }

/-- A concrete decode oracle: the line `"sys"` decodes to the bare
system message, `"A"` to the assistant message, everything else fails
to parse. -/
def sampleHost : JsonHost :=
  { decode := fun s =>
      if s = "sys" then some sampleSystemMsg
      else if s = "A" then some sampleAssistantMsg
      else none
    decodeAny := fun _ => none }

/-- A stand-in line serializer for the round-trip witness. -/
def sampleEnc : ClaudeJsonMessage → String :=
  fun m => if m.type = "system" then "sys" else "A"

/-- A parsed entry carrying timestamp 5. -/
def entryAt5 : ParsedLogEntry :=
  { index := 0, badge := "⚙️ System", status := "system", timestamp := some 5
    tokens := none, payload := [⟨"a", false⟩], raw := "a" }

/-- A parsed entry carrying the earlier timestamp 3 placed later in the
file. -/
def entryAt3 : ParsedLogEntry :=
  { index := 1, badge := "⚙️ System", status := "system", timestamp := some 3
    tokens := none, payload := [⟨"b", false⟩], raw := "b" }

/-- A concrete running record used to instantiate hypotheses. -/
def sampleRecord : ExecutionHistoryEntry :=
  { id := 0, type := .agent, targetId := "reviewer", label := "reviewer"
    logFile := "reviewer/0.jsonl", status := .running, startTime := 0
    endTime := none, metadata := none }

/-! ## Basic lemmas about the ledger operations -/

theorem TerminalStatus.toExec_ne_running (t : TerminalStatus) :
    t.toExec ≠ .running := by
  cases t <;> simp [TerminalStatus.toExec]

theorem applyCompletion_id (now : Int) (opts : ExecutionCompletionOptions)
    (r : ExecutionHistoryEntry) : (applyCompletion now opts r).id = r.id := rfl

theorem applyCompletion_status (now : Int) (opts : ExecutionCompletionOptions)
    (r : ExecutionHistoryEntry) :
    (applyCompletion now opts r).status = opts.status.toExec := rfl

theorem applyCompletion_targetId (now : Int) (opts : ExecutionCompletionOptions)
    (r : ExecutionHistoryEntry) :
    (applyCompletion now opts r).targetId = r.targetId := rfl

theorem completeExecution_fst_map_id (now : Int) (id : Nat)
    (opts : ExecutionCompletionOptions) :
    ∀ rs : List ExecutionHistoryEntry,
      ((completeExecution now id opts rs).1).map (fun r => r.id)
        = rs.map (fun r => r.id)
  | [] => rfl
  | r :: rs => by
    by_cases h : r.id = id
    · simp [completeExecution, h, applyCompletion]
    · simp [completeExecution, h, completeExecution_fst_map_id now id opts rs]

theorem completeExecution_snd_status (now : Int) (id : Nat)
    (opts : ExecutionCompletionOptions) :
    ∀ rs : List ExecutionHistoryEntry, ∀ r,
      (completeExecution now id opts rs).2 = some r →
        r.status = opts.status.toExec
  | [] => by simp [completeExecution]
  | r' :: rs => by
    by_cases h : r'.id = id
    · simp only [completeExecution, if_pos h]
      intro r hr
      injection hr with hr
      subst hr
      rfl
    · simp only [completeExecution, if_neg h]
      exact completeExecution_snd_status now id opts rs

theorem completeExecution_snd_isSome (now : Int) (id : Nat)
    (opts : ExecutionCompletionOptions) :
    ∀ rs : List ExecutionHistoryEntry,
      ((completeExecution now id opts rs).2).isSome
        ↔ id ∈ rs.map (fun r => r.id)
  | [] => by simp [completeExecution]
  | r :: rs => by
    by_cases h : r.id = id
    · simp [completeExecution, h]
    · simp only [completeExecution, if_neg h, List.map_cons, List.mem_cons]
      rw [completeExecution_snd_isSome now id opts rs]
      constructor
      · exact fun hm => Or.inr hm
      · rintro (hm | hm)
        · exact absurd hm.symm h
        · exact hm

theorem completeExecution_unknown (now : Int) (id : Nat)
    (opts : ExecutionCompletionOptions) :
    ∀ rs : List ExecutionHistoryEntry, (∀ r ∈ rs, r.id ≠ id) →
      completeExecution now id opts rs = (rs, none)
  | [], _ => rfl
  | r :: rs, h => by
    have hr : ¬ r.id = id := h r (List.mem_cons_self r rs)
    simp [completeExecution, hr,
      completeExecution_unknown now id opts rs
        (fun r' hmem => h r' (List.mem_cons_of_mem r hmem))]

theorem updateMetadata_unknown (id : Nat) (metadata : List (String × String)) :
    ∀ rs : List ExecutionHistoryEntry, (∀ r ∈ rs, r.id ≠ id) →
      updateMetadata id metadata rs = (rs, none)
  | [], _ => rfl
  | r :: rs, h => by
    have hr : ¬ r.id = id := h r (List.mem_cons_self r rs)
    simp [updateMetadata, hr,
      updateMetadata_unknown id metadata rs
        (fun r' hmem => h r' (List.mem_cons_of_mem r hmem))]

theorem removeByLogFile_unmatched (logFile : String)
    (rs : List ExecutionHistoryEntry) (h : ∀ r ∈ rs, r.logFile ≠ logFile) :
    removeByLogFile logFile rs = (rs, false) := by
  have hfilter : rs.filter (fun record => decide (record.logFile ≠ logFile)) = rs :=
    List.filter_eq_self.mpr (fun r hr => by simpa using h r hr)
  simp only [removeByLogFile, hfilter]
  simp

/-! ## Claims about the History Ledger -/

/-- **C9**: `completeExecution` called with an id matching no stored
record returns `undefined` (`none`) and leaves the store unchanged
(never throws), for every store state and completion options; the same
no-op behaviour holds for `updateMetadata` with an unknown id and for
`removeByLogFile` with an unmatched path (which reports `false`). -/
theorem claim_C9_lookup_miss_noop (now : Int) (id : Nat)
    (opts : ExecutionCompletionOptions) (metadata : List (String × String))
    (logFile : String) (records : List ExecutionHistoryEntry)
    (hid : ∀ r ∈ records, r.id ≠ id)
    (hlf : ∀ r ∈ records, r.logFile ≠ logFile) :
    completeExecution now id opts records = (records, none) ∧
    updateMetadata id metadata records = (records, none) ∧
    removeByLogFile logFile records = (records, false) :=
  ⟨completeExecution_unknown now id opts records hid,
   updateMetadata_unknown id metadata records hid,
   removeByLogFile_unmatched logFile records hlf⟩

/-- Witness for C9 at a concrete store and unmatched id/path. -/
theorem claim_C9_witness :
    completeExecution 5 1 ⟨.success, none, none⟩ [sampleRecord]
        = ([sampleRecord], none) ∧
    updateMetadata 1 [("k", "v")] [sampleRecord] = ([sampleRecord], none) ∧
    removeByLogFile "other.jsonl" [sampleRecord] = ([sampleRecord], false) :=
  claim_C9_lookup_miss_noop 5 1 ⟨.success, none, none⟩ [("k", "v")]
    "other.jsonl" [sampleRecord] (by decide) (by decide)

/-- **C5** (counterexample): a record's status does **not** transition
at most once.  `completeExecution` overwrites the status of a matching
record unconditionally, so the stop path (`status := stopped`) followed
by the engine's failure callback for the same run (`status := failed`)
changes an already-terminal record's status a second time. -/
theorem claim_C5_counterexample :
    ((completeExecution 1 0 ⟨.stopped, none, some 1⟩
        (beginExecution 0 0 ⟨.agent, "reviewer", "reviewer", "reviewer/0.jsonl", none⟩ []).1).1).map
        (fun r => r.status) = [.stopped] ∧
    ((completeExecution 2 0 ⟨.failed, some [("error", "killed")], some 2⟩
        ((completeExecution 1 0 ⟨.stopped, none, some 1⟩
          (beginExecution 0 0 ⟨.agent, "reviewer", "reviewer", "reviewer/0.jsonl", none⟩ []).1).1)).1).map
        (fun r => r.status) = [.failed] := by
  constructor <;> rfl

/-- **C5 (amended)**: `completeExecution` with a matching id sets the
record's status to the supplied terminal value unconditionally — a
record that is already terminal is overwritten again by a later call
(as in the stop path followed by the engine's failure callback), so the
once-only transition holds only for records that receive a single
`completeExecution` call.  Every successful completion yields a
non-`running` status equal to the requested one, and a second call on
the same id still matches and overwrites. -/
theorem claim_C5_amended_overwrite (now₁ now₂ : Int) (id : Nat)
    (o₁ o₂ : ExecutionCompletionOptions)
    (records : List ExecutionHistoryEntry)
    (h : ((completeExecution now₁ id o₁ records).2).isSome) :
    (∀ r, (completeExecution now₁ id o₁ records).2 = some r →
       r.status = o₁.status.toExec ∧ r.status ≠ .running) ∧
    ∃ r₂, (completeExecution now₂ id o₂
        (completeExecution now₁ id o₁ records).1).2 = some r₂ ∧
      r₂.status = o₂.status.toExec := by
  refine ⟨fun r hr => ?_, ?_⟩
  · have hs := completeExecution_snd_status now₁ id o₁ records r hr
    exact ⟨hs, hs ▸ TerminalStatus.toExec_ne_running o₁.status⟩
  · have hmem : id ∈ records.map (fun r => r.id) :=
      (completeExecution_snd_isSome now₁ id o₁ records).mp h
    have hmem2 : id ∈ ((completeExecution now₁ id o₁ records).1).map (fun r => r.id) := by
      rw [completeExecution_fst_map_id]
      exact hmem
    have h2 := (completeExecution_snd_isSome now₂ id o₂
      (completeExecution now₁ id o₁ records).1).mpr hmem2
    obtain ⟨r₂, hr₂⟩ := Option.isSome_iff_exists.mp h2
    exact ⟨r₂, hr₂, completeExecution_snd_status now₂ id o₂ _ r₂ hr₂⟩

/-- Witness for the amended C5 at a concrete single-record store. -/
theorem claim_C5_amended_witness :
    (∀ r, (completeExecution 1 0 ⟨.stopped, none, some 1⟩ [sampleRecord]).2 = some r →
       r.status = TerminalStatus.stopped.toExec ∧ r.status ≠ .running) ∧
    ∃ r₂, (completeExecution 2 0 ⟨.failed, none, some 2⟩
        (completeExecution 1 0 ⟨.stopped, none, some 1⟩ [sampleRecord]).1).2 = some r₂ ∧
      r₂.status = TerminalStatus.failed.toExec :=
  claim_C5_amended_overwrite 1 2 0 ⟨.stopped, none, some 1⟩ ⟨.failed, none, some 2⟩
    [sampleRecord] (by decide)

/-! ## Lemmas about the Status Tracker model -/

theorem lookup_setAssoc (k kq : String) (v : AgentStatus)
    (l : List (String × AgentStatus)) :
    (setAssoc k v l).lookup kq = if kq = k then some v else l.lookup kq := by
  induction l with
  | nil =>
    by_cases h : kq = k
    · simp [setAssoc, List.lookup, h]
    · have hb : (kq == k) = false := beq_eq_false_iff_ne.mpr h
      simp [setAssoc, List.lookup, h, hb]
  | cons p rest ih =>
    obtain ⟨k', v'⟩ := p
    by_cases hk : k' = k
    · subst hk
      by_cases hq : kq = k'
      · simp [setAssoc, List.lookup, hq]
      · have hb : (kq == k') = false := beq_eq_false_iff_ne.mpr hq
        simp [setAssoc, List.lookup, hq, hb]
    · by_cases hq : kq = k'
      · have hb : (kq == k') = true := beq_iff_eq.mpr hq
        have hqk : ¬ kq = k := fun h => hk (hq ▸ h)
        simp [setAssoc, List.lookup, hk, hb, hqk]
      · have hb : (kq == k') = false := beq_eq_false_iff_ne.mpr hq
        simp [setAssoc, List.lookup, hk, hb, ih]

theorem pendingIdsOf_append (l₁ l₂ : List (String × Nat)) (name : String) :
    pendingIdsOf (l₁ ++ l₂) name
      = pendingIdsOf l₁ name ++ pendingIdsOf l₂ name := by
  simp [pendingIdsOf]

theorem mem_pendingIdsOf_of_mem (l : List (String × Nat)) (name : String)
    (hid : Nat) (h : (name, hid) ∈ l) : hid ∈ pendingIdsOf l name := by
  simp only [pendingIdsOf, List.mem_map, List.mem_filter]
  exact ⟨(name, hid), ⟨h, by simp⟩, rfl⟩

theorem mem_of_mem_pendingIdsOf (l : List (String × Nat)) (name : String)
    (hid : Nat) (h : hid ∈ pendingIdsOf l name) : (name, hid) ∈ l := by
  simp only [pendingIdsOf, List.mem_map, List.mem_filter] at h
  obtain ⟨p, ⟨hp, hp1⟩, hp2⟩ := h
  obtain ⟨pn, pi⟩ := p
  simp only [decide_eq_true_eq] at hp1
  cases hp1
  cases hp2
  exact hp

theorem pendingIdsOf_erase_self (name : String) (hid : Nat)
    (l : List (String × Nat)) :
    pendingIdsOf (l.erase (name, hid)) name = (pendingIdsOf l name).erase hid := by
  induction l with
  | nil => rfl
  | cons p rest ih =>
    by_cases hp : p = (name, hid)
    · subst hp
      rw [List.erase_cons_head]
      have hhead : pendingIdsOf ((name, hid) :: rest) name
          = hid :: pendingIdsOf rest name := by
        simp [pendingIdsOf, List.filter_cons]
      rw [hhead, List.erase_cons_head]
    · rw [List.erase_cons_tail (by simp [hp])]
      obtain ⟨pn, pi⟩ := p
      by_cases hn : pn = name
      · subst hn
        have hpi : pi ≠ hid := fun h => hp (by rw [h])
        have h1 : pendingIdsOf ((pn, pi) :: rest.erase (pn, hid)) pn
            = pi :: pendingIdsOf (rest.erase (pn, hid)) pn := by
          simp [pendingIdsOf, List.filter_cons]
        have h2 : pendingIdsOf ((pn, pi) :: rest) pn
            = pi :: pendingIdsOf rest pn := by
          simp [pendingIdsOf, List.filter_cons]
        rw [h1, h2, ih, List.erase_cons_tail (by simp [hpi])]
      · have h1 : pendingIdsOf ((pn, pi) :: rest.erase (name, hid)) name
            = pendingIdsOf (rest.erase (name, hid)) name := by
          simp [pendingIdsOf, List.filter_cons, hn]
        have h2 : pendingIdsOf ((pn, pi) :: rest) name
            = pendingIdsOf rest name := by
          simp [pendingIdsOf, List.filter_cons, hn]
        rw [h1, h2, ih]

theorem pendingIdsOf_erase_other (name nameq : String) (hid : Nat)
    (h : nameq ≠ name) (l : List (String × Nat)) :
    pendingIdsOf (l.erase (name, hid)) nameq = pendingIdsOf l nameq := by
  induction l with
  | nil => rfl
  | cons p rest ih =>
    by_cases hp : p = (name, hid)
    · subst hp
      rw [List.erase_cons_head]
      have hne : ¬ name = nameq := fun hh => h hh.symm
      have hhead : pendingIdsOf ((name, hid) :: rest) nameq
          = pendingIdsOf rest nameq := by
        simp [pendingIdsOf, List.filter_cons, hne]
      rw [hhead]
    · rw [List.erase_cons_tail (by simp [hp])]
      obtain ⟨pn, pi⟩ := p
      by_cases hn : pn = nameq
      · subst hn
        have h1 : pendingIdsOf ((pn, pi) :: rest.erase (name, hid)) pn
            = pi :: pendingIdsOf (rest.erase (name, hid)) pn := by
          simp [pendingIdsOf, List.filter_cons]
        have h2 : pendingIdsOf ((pn, pi) :: rest) pn
            = pi :: pendingIdsOf rest pn := by
          simp [pendingIdsOf, List.filter_cons]
        rw [h1, h2, ih]
      · have h1 : pendingIdsOf ((pn, pi) :: rest.erase (name, hid)) nameq
            = pendingIdsOf (rest.erase (name, hid)) nameq := by
          simp [pendingIdsOf, List.filter_cons, hn]
        have h2 : pendingIdsOf ((pn, pi) :: rest) nameq
            = pendingIdsOf rest nameq := by
          simp [pendingIdsOf, List.filter_cons, hn]
        rw [h1, h2, ih]

theorem runningIdsOf_append (rs₁ rs₂ : List ExecutionHistoryEntry)
    (name : String) :
    runningIdsOf (rs₁ ++ rs₂) name
      = runningIdsOf rs₁ name ++ runningIdsOf rs₂ name := by
  simp [runningIdsOf]

theorem mem_map_id_of_mem_runningIdsOf (rs : List ExecutionHistoryEntry)
    (name : String) (i : Nat) (h : i ∈ runningIdsOf rs name) :
    i ∈ rs.map (fun r => r.id) := by
  simp only [runningIdsOf, List.mem_map, List.mem_filter] at h
  simp only [List.mem_map]
  obtain ⟨r, ⟨hr, _⟩, hri⟩ := h
  exact ⟨r, hr, hri⟩

theorem runningIdsOf_complete (now : Int) (hid : Nat)
    (opts : ExecutionCompletionOptions) (rs : List ExecutionHistoryEntry)
    (name : String) (hnd : (rs.map (fun r => r.id)).Nodup) :
    runningIdsOf ((completeExecution now hid opts rs).1) name
      = (runningIdsOf rs name).filter (fun i => decide (i ≠ hid)) := by
  induction rs with
  | nil => rfl
  | cons r rs ih =>
    have hnd2 : r.id ∉ rs.map (fun r => r.id) ∧ (rs.map (fun r => r.id)).Nodup := by
      rw [List.map_cons, List.nodup_cons] at hnd
      exact hnd
    have happly : ¬ ((applyCompletion now opts r).type = ExecutionTargetType.agent
        ∧ (applyCompletion now opts r).targetId = name
        ∧ (applyCompletion now opts r).status = ExecStatus.running) :=
      fun hc => TerminalStatus.toExec_ne_running opts.status hc.2.2
    by_cases h : r.id = hid
    · have hfix : (runningIdsOf rs name).filter (fun i => decide (i ≠ hid))
          = runningIdsOf rs name := by
        refine List.filter_eq_self.mpr (fun i hi => ?_)
        have hmem : i ∈ rs.map (fun r => r.id) :=
          mem_map_id_of_mem_runningIdsOf rs name i hi
        have hne : i ≠ hid := fun he => hnd2.1 (by rw [h, ← he]; exact hmem)
        simp [hne]
      have hl : (completeExecution now hid opts (r :: rs)).1
          = applyCompletion now opts r :: rs := by
        simp [completeExecution, h]
      rw [hl]
      have h1 : runningIdsOf (applyCompletion now opts r :: rs) name
          = runningIdsOf rs name := by
        simp [runningIdsOf, List.filter_cons, happly]
      by_cases hpred : r.type = ExecutionTargetType.agent ∧ r.targetId = name
          ∧ r.status = ExecStatus.running
      · have h2 : runningIdsOf (r :: rs) name = r.id :: runningIdsOf rs name := by
          simp [runningIdsOf, List.filter_cons, hpred]
        have h3 : (r.id :: runningIdsOf rs name).filter (fun i => decide (i ≠ hid))
            = (runningIdsOf rs name).filter (fun i => decide (i ≠ hid)) := by
          simp [List.filter_cons, h]
        rw [h1, h2, h3, hfix]
      · have h2 : runningIdsOf (r :: rs) name = runningIdsOf rs name := by
          simp [runningIdsOf, List.filter_cons, hpred]
        rw [h1, h2, hfix]
    · have hl : (completeExecution now hid opts (r :: rs)).1
          = r :: (completeExecution now hid opts rs).1 := by
        simp [completeExecution, h]
      rw [hl]
      by_cases hpred : r.type = ExecutionTargetType.agent ∧ r.targetId = name
          ∧ r.status = ExecStatus.running
      · have h1 : runningIdsOf (r :: (completeExecution now hid opts rs).1) name
            = r.id :: runningIdsOf ((completeExecution now hid opts rs).1) name := by
          simp [runningIdsOf, List.filter_cons, hpred]
        have h2 : runningIdsOf (r :: rs) name = r.id :: runningIdsOf rs name := by
          simp [runningIdsOf, List.filter_cons, hpred]
        have h3 : (r.id :: runningIdsOf rs name).filter (fun i => decide (i ≠ hid))
            = r.id :: (runningIdsOf rs name).filter (fun i => decide (i ≠ hid)) := by
          simp [List.filter_cons, h]
        rw [h1, h2, h3, ih hnd2.2]
      · have h1 : runningIdsOf (r :: (completeExecution now hid opts rs).1) name
            = runningIdsOf ((completeExecution now hid opts rs).1) name := by
          simp [runningIdsOf, List.filter_cons, hpred]
        have h2 : runningIdsOf (r :: rs) name = runningIdsOf rs name := by
          simp [runningIdsOf, List.filter_cons, hpred]
        rw [h1, h2, ih hnd2.2]

theorem pendingIdsOf_singleton_self (name : String) (hid : Nat) :
    pendingIdsOf [(name, hid)] name = [hid] := by
  simp [pendingIdsOf]

theorem pendingIdsOf_singleton_other (name nameq : String) (hid : Nat)
    (h : nameq ≠ name) : pendingIdsOf [(name, hid)] nameq = [] := by
  have hne : ¬ name = nameq := fun hh => h hh.symm
  simp [pendingIdsOf, hne]

theorem startRun_records (s : ManagerState) (name : String) (now : Int) :
    (startRun s name now).records = s.records ++
      [{ id := s.nextId, type := .agent, targetId := name, label := name
         logFile := agentLogFile name s.nextId, status := .running
         startTime := now, endTime := none, metadata := none }] := rfl

theorem startRun_pending (s : ManagerState) (name : String) (now : Int) :
    (startRun s name now).pending = s.pending ++ [(name, s.nextId)] := rfl

theorem startRun_statuses (s : ManagerState) (name : String) (now : Int) :
    (startRun s name now).statuses = setAssoc name
      { name := name, state := .running, startTime := some now, error := none
        logFile := some (agentLogFile name s.nextId), lastCompleted := none
        historyId := some s.nextId } s.statuses := rfl

theorem startRun_nextId (s : ManagerState) (name : String) (now : Int) :
    (startRun s name now).nextId = s.nextId + 1 := rfl

/-- The coupling invariant of the Status Tracker model: record ids and
pending ids are fresh and duplicate-free, and for every target the
pending continuations and the Running ledger records both consist of
exactly the tracked run (when the tracker shows the target as running)
and are empty otherwise. -/
structure Inv (s : ManagerState) : Prop where
  idsLt : ∀ r ∈ s.records, r.id < s.nextId
  pendingLt : ∀ p ∈ s.pending, p.2 < s.nextId
  recNodup : (s.records.map (fun r => r.id)).Nodup
  pendNodup : (s.pending.map (fun p => p.2)).Nodup
  pendingEq : ∀ name, pendingFor s name = (trackedRun s name).toList
  runningEq : ∀ name, runningIdsFor s name = (trackedRun s name).toList

theorem inv_init (agents : List String) : Inv (initState agents) := by
  constructor <;>
    simp [initState, pendingFor, runningIdsFor, pendingIdsOf, runningIdsOf,
      trackedRun, List.lookup]

theorem inv_startRun (s : ManagerState) (name : String) (now : Int)
    (hinv : Inv s) (htr : trackedRun s name = none) :
    Inv (startRun s name now) := by
  constructor
  · intro r hr
    rw [startRun_records] at hr
    rw [startRun_nextId]
    rcases List.mem_append.mp hr with hr | hr
    · exact Nat.lt_succ_of_lt (hinv.idsLt r hr)
    · rw [List.mem_singleton.mp hr]
      exact Nat.lt_succ_self s.nextId
  · intro p hp
    rw [startRun_pending] at hp
    rw [startRun_nextId]
    rcases List.mem_append.mp hp with hp | hp
    · exact Nat.lt_succ_of_lt (hinv.pendingLt p hp)
    · rw [List.mem_singleton.mp hp]
      exact Nat.lt_succ_self s.nextId
  · rw [startRun_records, List.map_append]
    refine (hinv.recNodup.append (by simp) ?_)
    intro a ha hb
    have h1 : a < s.nextId := by
      obtain ⟨r0, hr0, he⟩ := List.mem_map.mp ha
      exact he ▸ hinv.idsLt r0 hr0
    have h2 : a = s.nextId := by simpa using hb
    exact absurd (h2 ▸ h1) (lt_irrefl s.nextId)
  · rw [startRun_pending, List.map_append]
    refine (hinv.pendNodup.append (by simp) ?_)
    intro a ha hb
    have h1 : a < s.nextId := by
      obtain ⟨p0, hp0, he⟩ := List.mem_map.mp ha
      exact he ▸ hinv.pendingLt p0 hp0
    have h2 : a = s.nextId := by simpa using hb
    exact absurd (h2 ▸ h1) (lt_irrefl s.nextId)
  · intro nameq
    have hlk := lookup_setAssoc name nameq
      { name := name, state := .running, startTime := some now, error := none
        logFile := some (agentLogFile name s.nextId), lastCompleted := none
        historyId := some s.nextId } s.statuses
    by_cases hq : nameq = name
    · subst hq
      have hL : pendingFor (startRun s nameq now) nameq = [s.nextId] := by
        have hold : pendingIdsOf s.pending nameq = [] := by
          have := hinv.pendingEq nameq
          rw [htr] at this
          exact this
        rw [pendingFor, startRun_pending, pendingIdsOf_append, hold,
          pendingIdsOf_singleton_self]
        rfl
      have hR : trackedRun (startRun s nameq now) nameq = some s.nextId := by
        rw [trackedRun, startRun_statuses, hlk, if_pos rfl]
        rfl
      rw [hL, hR]
      rfl
    · have hL : pendingFor (startRun s name now) nameq
          = pendingIdsOf s.pending nameq := by
        rw [pendingFor, startRun_pending, pendingIdsOf_append,
          pendingIdsOf_singleton_other name nameq s.nextId hq, List.append_nil]
      have hR : trackedRun (startRun s name now) nameq = trackedRun s nameq := by
        rw [trackedRun, startRun_statuses, hlk, if_neg hq, trackedRun]
      rw [hL, hR]
      exact hinv.pendingEq nameq
  · intro nameq
    have hlk := lookup_setAssoc name nameq
      { name := name, state := .running, startTime := some now, error := none
        logFile := some (agentLogFile name s.nextId), lastCompleted := none
        historyId := some s.nextId } s.statuses
    by_cases hq : nameq = name
    · subst hq
      have hL : runningIdsFor (startRun s nameq now) nameq = [s.nextId] := by
        have hold : runningIdsOf s.records nameq = [] := by
          have := hinv.runningEq nameq
          rw [htr] at this
          exact this
        rw [runningIdsFor, startRun_records, runningIdsOf_append, hold]
        simp [runningIdsOf]
      have hR : trackedRun (startRun s nameq now) nameq = some s.nextId := by
        rw [trackedRun, startRun_statuses, hlk, if_pos rfl]
        rfl
      rw [hL, hR]
      rfl
    · have hne : ¬ name = nameq := fun hh => hq hh.symm
      have hL : runningIdsFor (startRun s name now) nameq
          = runningIdsOf s.records nameq := by
        rw [runningIdsFor, startRun_records, runningIdsOf_append]
        simp [runningIdsOf, hne]
      have hR : trackedRun (startRun s name now) nameq = trackedRun s nameq := by
        rw [trackedRun, startRun_statuses, hlk, if_neg hq, trackedRun]
      rw [hL, hR]
      exact hinv.runningEq nameq

theorem inv_startStep (s : ManagerState) (name : String) (now : Int)
    (hinv : Inv s) : Inv (startStep s name now) := by
  unfold startStep
  by_cases hmem : name ∈ s.agents
  · rw [if_pos hmem]
    cases hl : s.statuses.lookup name with
    | some st =>
      by_cases hr : st.state = .running
      · simp only [hl, if_pos hr]
        exact hinv
      · simp only [hl, if_neg hr]
        refine inv_startRun s name now hinv ?_
        simp [trackedRun, hl, hr]
    | none =>
      simp only [hl]
      refine inv_startRun s name now hinv ?_
      simp [trackedRun, hl]
  · rw [if_neg hmem]
    exact hinv

theorem inv_finish_aux (s : ManagerState) (name : String) (hid : Nat)
    (now : Int) (opts : ExecutionCompletionOptions) (stNew : AgentStatus)
    (hmem : (name, hid) ∈ s.pending) (hst : ¬ stNew.state = .running)
    (hinv : Inv s) :
    Inv { s with
      pending := s.pending.erase (name, hid)
      statuses := setAssoc name stNew s.statuses
      records := (completeExecution now hid opts s.records).1 } := by
  have hpend : hid ∈ pendingFor s name :=
    mem_pendingIdsOf_of_mem s.pending name hid hmem
  have htrk : trackedRun s name = some hid := by
    have hpe := hinv.pendingEq name
    rw [hpe] at hpend
    cases htr : trackedRun s name with
    | none =>
      rw [htr] at hpend
      simp at hpend
    | some h2 =>
      rw [htr] at hpend
      simp only [Option.toList_some, List.mem_singleton] at hpend
      rw [hpend]
  have hpeq : pendingFor s name = [hid] := by
    rw [hinv.pendingEq name, htrk]
    rfl
  have hreq : runningIdsFor s name = [hid] := by
    rw [hinv.runningEq name, htrk]
    rfl
  constructor
  · intro r hr
    have hm : r.id ∈ ((completeExecution now hid opts s.records).1).map
        (fun r => r.id) := List.mem_map_of_mem _ hr
    rw [completeExecution_fst_map_id] at hm
    obtain ⟨r0, hr0, he⟩ := List.mem_map.mp hm
    exact he ▸ hinv.idsLt r0 hr0
  · intro p hp
    exact hinv.pendingLt p (List.erase_subset (name, hid) s.pending hp)
  · show (((completeExecution now hid opts s.records).1).map
      (fun r => r.id)).Nodup
    rw [completeExecution_fst_map_id]
    exact hinv.recNodup
  · show ((s.pending.erase (name, hid)).map
      (fun (p : String × Nat) => p.2)).Nodup
    have hsub : List.Sublist
        ((s.pending.erase (name, hid)).map (fun (p : String × Nat) => p.2))
        (s.pending.map (fun (p : String × Nat) => p.2)) :=
      (List.erase_sublist (name, hid) s.pending).map (fun p => p.2)
    exact hinv.pendNodup.sublist hsub
  · intro nameq
    by_cases hq : nameq = name
    · subst hq
      show pendingIdsOf (s.pending.erase (nameq, hid)) nameq
        = (trackedRun _ nameq).toList
      rw [pendingIdsOf_erase_self]
      have hL : (pendingIdsOf s.pending nameq).erase hid = [] := by
        rw [show pendingIdsOf s.pending nameq = pendingFor s nameq from rfl, hpeq,
          List.erase_cons_head]
      rw [hL]
      have hR : trackedRun { s with
          pending := s.pending.erase (nameq, hid)
          statuses := setAssoc nameq stNew s.statuses
          records := (completeExecution now hid opts s.records).1 } nameq
          = none := by
        simp [trackedRun, lookup_setAssoc, hst]
      rw [hR]
      rfl
    · show pendingIdsOf (s.pending.erase (name, hid)) nameq
        = (trackedRun _ nameq).toList
      rw [pendingIdsOf_erase_other name nameq hid hq]
      have hR : trackedRun { s with
          pending := s.pending.erase (name, hid)
          statuses := setAssoc name stNew s.statuses
          records := (completeExecution now hid opts s.records).1 } nameq
          = trackedRun s nameq := by
        simp [trackedRun, lookup_setAssoc, hq]
      rw [hR]
      exact hinv.pendingEq nameq
  · intro nameq
    show runningIdsOf ((completeExecution now hid opts s.records).1) nameq
      = (trackedRun _ nameq).toList
    rw [runningIdsOf_complete now hid opts s.records nameq hinv.recNodup]
    by_cases hq : nameq = name
    · subst hq
      have hL : (runningIdsOf s.records nameq).filter
          (fun i => decide (i ≠ hid)) = [] := by
        rw [show runningIdsOf s.records nameq = runningIdsFor s nameq from rfl,
          hreq]
        simp
      rw [hL]
      have hR : trackedRun { s with
          pending := s.pending.erase (nameq, hid)
          statuses := setAssoc nameq stNew s.statuses
          records := (completeExecution now hid opts s.records).1 } nameq
          = none := by
        simp [trackedRun, lookup_setAssoc, hst]
      rw [hR]
      rfl
    · have hR : trackedRun { s with
          pending := s.pending.erase (name, hid)
          statuses := setAssoc name stNew s.statuses
          records := (completeExecution now hid opts s.records).1 } nameq
          = trackedRun s nameq := by
        simp [trackedRun, lookup_setAssoc, hq]
      rw [hR]
      cases htr2 : trackedRun s nameq with
      | none =>
        have h0 : runningIdsOf s.records nameq = [] := by
          have := hinv.runningEq nameq
          rw [htr2] at this
          exact this
        rw [h0]
        rfl
      | some h2 =>
        have h0 : runningIdsOf s.records nameq = [h2] := by
          have := hinv.runningEq nameq
          rw [htr2] at this
          exact this
        have hh2 : h2 ≠ hid := by
          intro he
          subst he
          have hmem2 : h2 ∈ pendingFor s nameq := by
            rw [hinv.pendingEq nameq, htr2]
            exact List.mem_singleton.mpr rfl
          have hpair2 : (nameq, h2) ∈ s.pending :=
            mem_of_mem_pendingIdsOf s.pending nameq h2 hmem2
          have heqp : (nameq, h2) = (name, h2) :=
            List.inj_on_of_nodup_map hinv.pendNodup hpair2 hmem rfl
          exact hq (congrArg Prod.fst heqp)
        rw [h0]
        simp [hh2]

theorem inv_finishSuccessStep (s : ManagerState) (name : String) (hid : Nat)
    (now : Int) (hinv : Inv s) : Inv (finishSuccessStep s name hid now) := by
  unfold finishSuccessStep
  by_cases hmem : (name, hid) ∈ s.pending
  · rw [if_pos hmem]
    exact inv_finish_aux s name hid now _ _ hmem (by simp) hinv
  · rw [if_neg hmem]
    exact hinv

theorem inv_finishFailureStep (s : ManagerState) (name : String) (hid : Nat)
    (err : String) (now : Int) (hinv : Inv s) :
    Inv (finishFailureStep s name hid err now) := by
  unfold finishFailureStep
  by_cases hmem : (name, hid) ∈ s.pending
  · rw [if_pos hmem]
    exact inv_finish_aux s name hid now _ _ hmem (by simp) hinv
  · rw [if_neg hmem]
    exact hinv

theorem inv_step (s : ManagerState) (e : AgentEvent) (hinv : Inv s)
    (hns : e.isStop = false) : Inv (step s e) := by
  cases e with
  | start name now => exact inv_startStep s name now hinv
  | finishSuccess name hid now => exact inv_finishSuccessStep s name hid now hinv
  | finishFailure name hid err now =>
    exact inv_finishFailureStep s name hid err now hinv
  | stop name now => simp [AgentEvent.isStop] at hns

theorem inv_foldl (tr : List AgentEvent) :
    ∀ s : ManagerState, Inv s → (∀ e ∈ tr, e.isStop = false) →
      Inv (tr.foldl step s) := by
  induction tr with
  | nil => exact fun s h _ => h
  | cons e tr ih =>
    intro s h hall
    exact ih (step s e)
      (inv_step s e h (hall e (List.mem_cons_self e tr)))
      (fun e2 he2 => hall e2 (List.mem_cons_of_mem e he2))

theorem inv_runEvents (agents : List String) (tr : List AgentEvent)
    (h : ∀ e ∈ tr, e.isStop = false) : Inv (runEvents agents tr) :=
  inv_foldl tr (initState agents) (inv_init agents) h

theorem step_agents (s : ManagerState) (e : AgentEvent) :
    (step s e).agents = s.agents := by
  cases e with
  | start name now =>
    show (startStep s name now).agents = s.agents
    unfold startStep
    by_cases h : name ∈ s.agents
    · rw [if_pos h]
      cases hl : s.statuses.lookup name with
      | some st =>
        by_cases hr : st.state = .running
        · simp [hl, hr]
        · simp [hl, hr, startRun]
      | none => simp [hl, startRun]
    · rw [if_neg h]
  | finishSuccess name hid now =>
    show (finishSuccessStep s name hid now).agents = s.agents
    unfold finishSuccessStep
    by_cases h : (name, hid) ∈ s.pending
    · simp [h]
    · simp [h]
  | finishFailure name hid err now =>
    show (finishFailureStep s name hid err now).agents = s.agents
    unfold finishFailureStep
    by_cases h : (name, hid) ∈ s.pending
    · simp [h]
    · simp [h]
  | stop name now =>
    show (stopStep s name now).agents = s.agents
    unfold stopStep
    cases hl : s.statuses.lookup name with
    | some st =>
      by_cases hr : st.state = .running
      · cases hh : st.historyId <;> simp [hl, hr, hh]
      · simp [hl, hr]
    | none => simp [hl]

theorem foldl_step_agents (tr : List AgentEvent) :
    ∀ s : ManagerState, (tr.foldl step s).agents = s.agents := by
  induction tr with
  | nil => intro s; rfl
  | cons e tr ih =>
    intro s
    rw [List.foldl_cons, ih, step_agents]

theorem runEvents_agents (agents : List String) (tr : List AgentEvent) :
    (runEvents agents tr).agents = agents := by
  rw [runEvents, foldl_step_agents]
  rfl

/-! ## Claims about the Status Tracker -/

/-- **C1** (counterexample): the headline invariant — at most one
Running Execution Record per `(type, targetId)` at any time — fails.
All five events are legitimate operations: start `"reviewer"`, stop it
(record 0 → Stopped), start it again (record 1, Running), then the
killed first run's `execute` promise rejects and the failure callback
fires (record 0 → Failed, tracked state reset to `error`), and a
further start from the non-running `error` state creates record 2 —
leaving records 1 and 2 simultaneously Running for
`(agent, "reviewer")`. -/
theorem claim_C1_counterexample :
    runningIdsFor (runEvents ["reviewer"]
      [.start "reviewer" 0, .stop "reviewer" 1, .start "reviewer" 2,
       .finishFailure "reviewer" 0 "terminated" 3, .start "reviewer" 4])
      "reviewer" = [1, 2] := by
  rfl

/-- **C1 (amended)**: `startAgent` while the target's tracked state is
`'running'` is rejected and is a strict no-op (no ledger record is
created via `beginExecution`); a start from a non-running state
appends exactly one new Running record; and the at-most-one-Running
invariant per `(agent, name)` target holds for every event trace
without `stopAgent` — after a stop, the stopped run's still-pending
failure callback can reset the tracked state while a newer run is
Running, which is what the counterexample exploits. -/
theorem claim_C1_amended_single_running (agents : List String)
    (tr : List AgentEvent) (htr : ∀ e ∈ tr, e.isStop = false)
    (name : String) (now : Int) :
    (runningIdsFor (runEvents agents tr) name).length ≤ 1 ∧
    (statusIsRunning (runEvents agents tr) name = true →
      step (runEvents agents tr) (.start name now) = runEvents agents tr) ∧
    (name ∈ agents → statusIsRunning (runEvents agents tr) name = false →
      (step (runEvents agents tr) (.start name now)).records
        = (runEvents agents tr).records ++
          [{ id := (runEvents agents tr).nextId, type := .agent
             targetId := name, label := name
             logFile := agentLogFile name (runEvents agents tr).nextId
             status := .running, startTime := now, endTime := none
             metadata := none }]) := by
  have hinv := inv_runEvents agents tr htr
  have hag : (runEvents agents tr).agents = agents := runEvents_agents agents tr
  refine ⟨?_, ?_, ?_⟩
  · rw [hinv.runningEq name]
    cases trackedRun (runEvents agents tr) name <;> simp
  · intro hrun
    show startStep (runEvents agents tr) name now = runEvents agents tr
    unfold startStep
    by_cases hm : name ∈ (runEvents agents tr).agents
    · rw [if_pos hm]
      cases hl : (runEvents agents tr).statuses.lookup name with
      | some st =>
        have hst : st.state = .running := by
          unfold statusIsRunning at hrun
          rw [hl] at hrun
          simpa using hrun
        simp [hl, hst]
      | none =>
        unfold statusIsRunning at hrun
        rw [hl] at hrun
        exact absurd hrun (by simp)
    · rw [if_neg hm]
  · intro hmem hnotrun
    show (startStep (runEvents agents tr) name now).records = _
    unfold startStep
    have hm : name ∈ (runEvents agents tr).agents := by
      rw [hag]
      exact hmem
    rw [if_pos hm]
    cases hl : (runEvents agents tr).statuses.lookup name with
    | some st =>
      have hst : ¬ st.state = .running := by
        unfold statusIsRunning at hnotrun
        rw [hl] at hnotrun
        simpa using hnotrun
      simp only [hl, if_neg hst]
      exact startRun_records (runEvents agents tr) name now
    | none =>
      simp only [hl]
      exact startRun_records (runEvents agents tr) name now

/-- Witness for the amended C1 on a concrete stop-free trace. -/
theorem claim_C1_amended_witness :
    (runningIdsFor (runEvents ["reviewer"] [.start "reviewer" 0])
      "reviewer").length ≤ 1 ∧
    (statusIsRunning (runEvents ["reviewer"] [.start "reviewer" 0])
        "reviewer" = true →
      step (runEvents ["reviewer"] [.start "reviewer" 0])
          (.start "reviewer" 5)
        = runEvents ["reviewer"] [.start "reviewer" 0]) ∧
    ("reviewer" ∈ ["reviewer"] →
      statusIsRunning (runEvents ["reviewer"] [.start "reviewer" 0])
          "reviewer" = false →
      (step (runEvents ["reviewer"] [.start "reviewer" 0])
          (.start "reviewer" 5)).records
        = (runEvents ["reviewer"] [.start "reviewer" 0]).records ++
          [{ id := (runEvents ["reviewer"] [.start "reviewer" 0]).nextId
             type := .agent, targetId := "reviewer", label := "reviewer"
             logFile := agentLogFile "reviewer"
               (runEvents ["reviewer"] [.start "reviewer" 0]).nextId
             status := .running, startTime := 5, endTime := none
             metadata := none }]) :=
  claim_C1_amended_single_running ["reviewer"] [.start "reviewer" 0]
    (by decide) "reviewer" 5

/-! ## Claims about the Process Execution Engine -/

/-- **C3**: exit code 0 resolves the promise (and nothing else does);
a nonzero (or null) exit rejects with a message composed, in order, of
the exit-code header, the last explicit stream error when it has
nonempty trim, the buffered stderr when nonempty, else — when neither
an error message nor stderr text exists — a sample of the last three
output fragments, and always, last, the log file path. -/
theorem claim_C3_exit_composition (code : Option Int) (id : String)
    (lastErrorMessage : Option String) (stderrChunks : List String)
    (recentMessages : List String) (logFile : String) :
    (exitOutcome code id lastErrorMessage stderrChunks recentMessages logFile
        = .resolved ↔ code = some 0) ∧
    (code ≠ some 0 →
      exitOutcome code id lastErrorMessage stderrChunks recentMessages logFile
        = .rejected (String.intercalate "\n"
            (exitDetails code id lastErrorMessage stderrChunks recentMessages
              logFile))) ∧
    exitDetails code id lastErrorMessage stderrChunks recentMessages logFile
      = ["Claude Code execution failed with code "
            ++ (match code with
                | some c => toString c
                | none => "unknown") ++ " for: " ++ id]
        ++ (if trimTruthy lastErrorMessage then
              ["Claude reported: " ++ (lastErrorMessage.getD "").trim]
            else [])
        ++ (if (String.join stderrChunks).trim ≠ "" then
              ["stderr: " ++ (String.join stderrChunks).trim]
            else [])
        ++ (if optStrFalsy lastErrorMessage ∧ (String.join stderrChunks).trim = ""
                ∧ recentMessages ≠ [] then
              ["Recent output: "
                ++ String.intercalate " | " (lastN 3 recentMessages)]
            else [])
        ++ ["Log file: " ++ logFile] ∧
    (exitDetails code id lastErrorMessage stderrChunks recentMessages
        logFile).getLast? = some ("Log file: " ++ logFile) := by
  refine ⟨?_, ?_, ?_, ?_⟩
  · unfold exitOutcome
    by_cases hc : code = some 0 <;> simp [hc]
  · intro hc
    unfold exitOutcome
    rw [if_neg hc]
  · unfold exitDetails
    by_cases h1 : trimTruthy lastErrorMessage <;>
      by_cases h2 : (String.join stderrChunks).trim ≠ "" <;>
        by_cases h3 : optStrFalsy lastErrorMessage
            ∧ (String.join stderrChunks).trim = "" ∧ recentMessages ≠ [] <;>
          simp [h1, h2, h3]
  · unfold exitDetails
    exact List.getLast?_concat _

/-- Witness for C3 at concrete exit data (both a success and a failure
instance are derivable; the hypotheses of the inner implications are
discharged at `code = some 1`). -/
theorem claim_C3_witness :
    (exitOutcome (some 1) "agent-reviewer" none ["boom"] ["last line"]
        "reviewer/0.jsonl" = .resolved ↔ (some 1 : Option Int) = some 0) ∧
    ((some 1 : Option Int) ≠ some 0 →
      exitOutcome (some 1) "agent-reviewer" none ["boom"] ["last line"]
          "reviewer/0.jsonl"
        = .rejected (String.intercalate "\n"
            (exitDetails (some 1) "agent-reviewer" none ["boom"] ["last line"]
              "reviewer/0.jsonl"))) ∧
    exitDetails (some 1) "agent-reviewer" none ["boom"] ["last line"]
        "reviewer/0.jsonl"
      = ["Claude Code execution failed with code "
            ++ (match (some 1 : Option Int) with
                | some c => toString c
                | none => "unknown") ++ " for: " ++ "agent-reviewer"]
        ++ (if trimTruthy none then
              ["Claude reported: " ++ ((none : Option String).getD "").trim]
            else [])
        ++ (if (String.join ["boom"]).trim ≠ "" then
              ["stderr: " ++ (String.join ["boom"]).trim]
            else [])
        ++ (if optStrFalsy none ∧ (String.join ["boom"]).trim = ""
                ∧ ["last line"] ≠ ([] : List String) then
              ["Recent output: "
                ++ String.intercalate " | " (lastN 3 ["last line"])]
            else [])
        ++ ["Log file: " ++ "reviewer/0.jsonl"] ∧
    (exitDetails (some 1) "agent-reviewer" none ["boom"] ["last line"]
        "reviewer/0.jsonl").getLast?
      = some ("Log file: " ++ "reviewer/0.jsonl") :=
  claim_C3_exit_composition (some 1) "agent-reviewer" none ["boom"]
    ["last line"] "reviewer/0.jsonl"

/-- **C4** (counterexample): array-typed directory flags are *not*
computed as the union of the default set and the per-call set.  With a
per-call `--add-dir` of `["a"]` and a configured default of `["b"]`,
the built command contains only `a`: the per-call array replaces the
default entirely. -/
theorem claim_C4_counterexample :
    buildCommand "claude"
      { permissionMode := none, addDirs := some ["b"], verbose := none
        print := none, outputFormat := none, model := none, mcpConfig := none }
      none
      (some { dangerouslySkipPermissions := none, addDir := some ["a"]
              verbose := none, print := none, outputFormat := none
              model := none, mcpConfig := none })
      = ["claude", "--add-dir", "a", "--output-format", "stream-json"] ∧
    "b" ∉ buildCommand "claude"
      { permissionMode := none, addDirs := some ["b"], verbose := none
        print := none, outputFormat := none, model := none, mcpConfig := none }
      none
      (some { dangerouslySkipPermissions := none, addDir := some ["a"]
              verbose := none, print := none, outputFormat := none
              model := none, mcpConfig := none }) := by
  constructor
  · rfl
  · decide

/-- **C4 (amended)**: a present per-call directory array *replaces*
the configured default list (the default is ignored entirely, even by
an empty per-call array); when no per-call array is given the default
list is used.  Scalar flags use the per-call value when present
(non-empty for strings), else the default. -/
theorem claim_C4_amended_replace_semantics (executable : String)
    (dflt : DefaultParams) (ws : Option String)
    (opts : ClaudeCommandOptions) :
    (opts.addDir.isSome →
      buildCommand executable dflt ws (some opts)
        = buildCommand executable { dflt with addDirs := none } ws
            (some opts)) ∧
    (opts.addDir = none →
      buildCommand executable dflt ws (some opts)
        = buildCommand executable dflt ws
            (some { opts with addDir := dflt.addDirs })) ∧
    (∀ m, truthyStr opts.model = some m →
      buildCommand executable dflt ws (some opts)
        = buildCommand executable { dflt with model := none } ws
            (some opts)) ∧
    (opts.model = none →
      buildCommand executable dflt ws (some opts)
        = buildCommand executable dflt ws
            (some { opts with model := dflt.model })) := by
  refine ⟨?_, ?_, ?_, ?_⟩
  · intro h
    obtain ⟨l, hl⟩ := Option.isSome_iff_exists.mp h
    simp [buildCommand, hl]
  · intro hl
    cases hd : dflt.addDirs <;> simp [buildCommand, hl, hd]
  · intro m hm
    have hnone : truthyStr (none : Option String) = none := rfl
    simp [buildCommand, jsStrOr, hm, hnone]
  · intro hl
    have hnone : truthyStr (none : Option String) = none := rfl
    cases ht : truthyStr dflt.model <;>
      simp [buildCommand, jsStrOr, hl, hnone, ht]

/-- Witness for the amended C4 at concrete options. -/
theorem claim_C4_amended_witness :
    (({ dangerouslySkipPermissions := none, addDir := some ["a"]
        verbose := none, print := none, outputFormat := none
        model := some "opus", mcpConfig := none } :
          ClaudeCommandOptions).addDir.isSome →
      buildCommand "claude"
        { permissionMode := none, addDirs := some ["b"], verbose := none
          print := none, outputFormat := none, model := some "sonnet"
          mcpConfig := none } none
        (some { dangerouslySkipPermissions := none, addDir := some ["a"]
                verbose := none, print := none, outputFormat := none
                model := some "opus", mcpConfig := none })
        = buildCommand "claude"
          { permissionMode := none, addDirs := none, verbose := none
            print := none, outputFormat := none, model := some "sonnet"
            mcpConfig := none } none
          (some { dangerouslySkipPermissions := none, addDir := some ["a"]
                  verbose := none, print := none, outputFormat := none
                  model := some "opus", mcpConfig := none })) ∧
    (({ dangerouslySkipPermissions := none, addDir := some ["a"]
        verbose := none, print := none, outputFormat := none
        model := some "opus", mcpConfig := none } :
          ClaudeCommandOptions).addDir = none →
      buildCommand "claude"
        { permissionMode := none, addDirs := some ["b"], verbose := none
          print := none, outputFormat := none, model := some "sonnet"
          mcpConfig := none } none
        (some { dangerouslySkipPermissions := none, addDir := some ["a"]
                verbose := none, print := none, outputFormat := none
                model := some "opus", mcpConfig := none })
        = buildCommand "claude"
          { permissionMode := none, addDirs := some ["b"], verbose := none
            print := none, outputFormat := none, model := some "sonnet"
            mcpConfig := none } none
          (some { dangerouslySkipPermissions := none, addDir := some ["b"]
                  verbose := none, print := none, outputFormat := none
                  model := some "opus", mcpConfig := none })) ∧
    (∀ m, truthyStr (some "opus") = some m →
      buildCommand "claude"
        { permissionMode := none, addDirs := some ["b"], verbose := none
          print := none, outputFormat := none, model := some "sonnet"
          mcpConfig := none } none
        (some { dangerouslySkipPermissions := none, addDir := some ["a"]
                verbose := none, print := none, outputFormat := none
                model := some "opus", mcpConfig := none })
        = buildCommand "claude"
          { permissionMode := none, addDirs := some ["b"], verbose := none
            print := none, outputFormat := none, model := none
            mcpConfig := none } none
          (some { dangerouslySkipPermissions := none, addDir := some ["a"]
                  verbose := none, print := none, outputFormat := none
                  model := some "opus", mcpConfig := none })) ∧
    (({ dangerouslySkipPermissions := none, addDir := some ["a"]
        verbose := none, print := none, outputFormat := none
        model := some "opus", mcpConfig := none } :
          ClaudeCommandOptions).model = none →
      buildCommand "claude"
        { permissionMode := none, addDirs := some ["b"], verbose := none
          print := none, outputFormat := none, model := some "sonnet"
          mcpConfig := none } none
        (some { dangerouslySkipPermissions := none, addDir := some ["a"]
                verbose := none, print := none, outputFormat := none
                model := some "opus", mcpConfig := none })
        = buildCommand "claude"
          { permissionMode := none, addDirs := some ["b"], verbose := none
            print := none, outputFormat := none, model := some "sonnet"
            mcpConfig := none } none
          (some { dangerouslySkipPermissions := none, addDir := some ["a"]
                  verbose := none, print := none, outputFormat := none
                  model := some "sonnet", mcpConfig := none })) :=
  claim_C4_amended_replace_semantics "claude"
    { permissionMode := none, addDirs := some ["b"], verbose := none
      print := none, outputFormat := none, model := some "sonnet"
      mcpConfig := none } none
    { dangerouslySkipPermissions := none, addDir := some ["a"]
      verbose := none, print := none, outputFormat := none
      model := some "opus", mcpConfig := none }

/-! ## Lemmas about the Log Viewer -/

theorem insertSorted_head (x : Int) (l : List Int) :
    (insertSorted x l).head? = some (match l.head? with
      | none => x
      | some y => min x y) := by
  cases l with
  | nil => rfl
  | cons y ys =>
    by_cases h : x ≤ y
    · simp [insertSorted, h, min_eq_left h]
    · simp [insertSorted, h, min_eq_right (le_of_not_le h)]

theorem sortInts_head (l : List Int) : (sortInts l).head? = minPair? l := by
  induction l with
  | nil => rfl
  | cons x xs ih =>
    show (insertSorted x (sortInts xs)).head? = _
    rw [insertSorted_head, ih]
    rfl

theorem getBaselineTimestamp_eq_min (entries : List ParsedLogEntry) :
    getBaselineTimestamp entries
      = minPair? (entries.filterMap (fun e => e.timestamp)) := by
  rw [getBaselineTimestamp, sortInts_head]

theorem getLast?_cons_eq {α : Type} (a : α) (l : List α) :
    (a :: l).getLast? = match l.getLast? with
      | some p => some p
      | none => some a := by
  cases l with
  | nil => rfl
  | cons b l2 =>
    rw [List.getLast?_cons_cons]
    cases hg : (b :: l2).getLast? with
    | none =>
      exact absurd hg (by simp)
    | some p => rfl

theorem buildEntriesAux_length (b : Option Int) :
    ∀ (prev : Option Int) (es : List ParsedLogEntry),
      (buildEntriesAux b prev es).length = es.length
  | _, [] => rfl
  | prev, e :: rest => by
    simp [buildEntriesAux, buildEntriesAux_length b _ rest]

theorem buildEntriesAux_get (b : Option Int) :
    ∀ (es : List ParsedLogEntry) (prev : Option Int) (i : Nat)
      (e : ParsedLogEntry), es.get? i = some e →
      (buildEntriesAux b prev es).get? i = some
        { index := e.index, badge := e.badge, status := e.status
          timestamp := e.timestamp
          relativeToStartMs := timeDiff e.timestamp b
          deltaPreviousMs := timeDiff e.timestamp
            (match lastTimestampBefore es i with
             | some p => some p
             | none => prev)
          tokens := e.tokens, payload := e.payload }
  | [], _, i, e => by
    intro h
    simp at h
  | x :: rest, prev, 0, e => by
    intro h
    rw [List.get?_cons_zero] at h
    injection h with h
    subst h
    simp [buildEntriesAux, lastTimestampBefore]
  | x :: rest, prev, Nat.succ j, e => by
    intro h
    rw [List.get?_cons_succ] at h
    have ih := buildEntriesAux_get b rest (nextPrevious x.timestamp prev) j e h
    show (buildEntriesAux b prev (x :: rest)).get? (j + 1) = _
    have hstep : (buildEntriesAux b prev (x :: rest)).get? (j + 1)
        = (buildEntriesAux b (nextPrevious x.timestamp prev) rest).get? j := by
      simp only [buildEntriesAux]
      rw [List.get?_cons_succ]
    rw [hstep, ih]
    have hprev : (match lastTimestampBefore rest j with
        | some p => some p
        | none => nextPrevious x.timestamp prev)
        = (match lastTimestampBefore (x :: rest) (j + 1) with
           | some p => some p
           | none => prev) := by
      cases hx : x.timestamp with
      | none =>
        have hlb : lastTimestampBefore (x :: rest) (j + 1)
            = lastTimestampBefore rest j := by
          simp [lastTimestampBefore, List.filterMap_cons, hx]
        rw [hlb]
        cases lastTimestampBefore rest j <;> rfl
      | some t =>
        have hlb : lastTimestampBefore (x :: rest) (j + 1)
            = some (((rest.take j).filterMap
                (fun entry => entry.timestamp)).getLast?.getD t) := by
          show ((x :: rest.take j).filterMap
            (fun entry => entry.timestamp)).getLast? = _
          rw [List.filterMap_cons]
          simp only [hx]
          rw [getLast?_cons_eq]
          cases hg : ((rest.take j).filterMap (fun entry => entry.timestamp)).getLast? <;>
            simp [hg]
        rw [hlb]
        show (match lastTimestampBefore rest j with
          | some p => some p
          | none => some t) = _
        cases hg : lastTimestampBefore rest j with
        | none =>
          rw [show ((rest.take j).filterMap
              (fun entry => entry.timestamp)).getLast? = none from hg]
          rfl
        | some p =>
          rw [show ((rest.take j).filterMap
              (fun entry => entry.timestamp)).getLast? = some p from hg]
          rfl
    rw [hprev]

theorem buildViewEntries_get (es : List ParsedLogEntry) (i : Nat)
    (e : ParsedLogEntry) (h : es.get? i = some e) :
    (buildViewEntries es).get? i = some
      { index := e.index, badge := e.badge, status := e.status
        timestamp := e.timestamp
        relativeToStartMs :=
          timeDiff e.timestamp (minPair? (es.filterMap (fun x => x.timestamp)))
        deltaPreviousMs := timeDiff e.timestamp (lastTimestampBefore es i)
        tokens := e.tokens, payload := e.payload } := by
  rw [buildViewEntries, buildEntriesAux_get (getBaselineTimestamp es) es none i e h,
    getBaselineTimestamp_eq_min]
  have hmatch : (match lastTimestampBefore es i with
      | some p => some p
      | none => (none : Option Int)) = lastTimestampBefore es i := by
    cases lastTimestampBefore es i <;> rfl
  rw [hmatch]

/-! ## Claims about the stream-message parser -/

/-- **C2**: the parser is total — every line yields exactly one entry
whose payload list is non-empty; when the line decodes but no payload
segments were extracted, the `(no content)` placeholder is
substituted. -/
theorem claim_C2_parse_total_nonempty (host : JsonHost) (now : Int)
    (line : String) (index : Nat) :
    (parseLine host now line index).payload ≠ [] ∧
    (∀ m, host.decode line = some m →
      extractPayloadSegmentsCore host m = [] →
      (parseLine host now line index).payload = [⟨"(no content)", false⟩]) := by
  constructor
  · unfold parseLine
    cases hd : host.decode line with
    | none => simp [parsePlainLine]
    | some m =>
      show (parseMessage host m index line).payload ≠ []
      unfold parseMessage extractPayloadSegments
      by_cases hc : (extractPayloadSegmentsCore host m).length > 0
      · simp only [if_pos hc]
        intro hnil
        rw [hnil] at hc
        exact absurd hc (by simp)
      · simp [if_neg hc]
  · intro m hm hcore
    unfold parseLine
    rw [hm]
    show (parseMessage host m index line).payload = _
    unfold parseMessage extractPayloadSegments
    rw [hcore]
    rfl

/-- Witness for C2: a non-JSON line has a non-empty payload, and the
bare system line `"sys"` (which extracts no segments) falls back to
the placeholder. -/
theorem claim_C2_witness :
    (parseLine sampleHost 0 "sys" 0).payload ≠ [] ∧
    (parseLine sampleHost 0 "sys" 0).payload = [⟨"(no content)", false⟩] :=
  ⟨(claim_C2_parse_total_nonempty sampleHost 0 "sys" 0).1,
   (claim_C2_parse_total_nonempty sampleHost 0 "sys" 0).2 sampleSystemMsg
     rfl rfl⟩

/-- **C8**: a line `JSON.parse` rejects parses to the plain-line
fallback — a System-classified entry whose payload is exactly the raw
line. -/
theorem claim_C8_nonjson_system_raw (host : JsonHost) (now : Int)
    (line : String) (index : Nat) (h : host.decode line = none) :
    parseLine host now line index = parsePlainLine now line index ∧
    (parseLine host now line index).status = "system" ∧
    (parseLine host now line index).payload = [⟨line, false⟩] := by
  have hp : parseLine host now line index = parsePlainLine now line index := by
    unfold parseLine
    rw [h]
  exact ⟨hp, by rw [hp]; rfl, by rw [hp]; rfl⟩

/-- Witness for C8: the scenario line `"plain output"`. -/
theorem claim_C8_witness :
    parseLine sampleHost 0 "plain output" 0
        = parsePlainLine 0 "plain output" 0 ∧
    (parseLine sampleHost 0 "plain output" 0).status = "system" ∧
    (parseLine sampleHost 0 "plain output" 0).payload
        = [⟨"plain output", false⟩] :=
  claim_C8_nonjson_system_raw sampleHost 0 "plain output" 0 rfl

/-- **C10** (implicit): a non-JSON fallback line is stamped with the
wall-clock parse time, so it is never timestamp-less — it always
participates in the timing computation (its `relativeToStartMs` is
always present in the built view) and its timestamp differs between
re-parses performed at different times. -/
theorem claim_C10_fallback_wallclock (host : JsonHost) (now now2 : Int)
    (line : String) (index : Nat) (h : host.decode line = none) :
    (parseLine host now line index).timestamp = some now ∧
    (now ≠ now2 →
      (parseLine host now line index).timestamp
        ≠ (parseLine host now2 line index).timestamp) ∧
    (∀ (es : List ParsedLogEntry) (i : Nat),
      es.get? i = some (parseLine host now line index) →
      ∃ vm, (buildViewEntries es).get? i = some vm
        ∧ vm.relativeToStartMs.isSome ∧ vm.timestamp = some now) := by
  have ht : (parseLine host now line index).timestamp = some now := by
    unfold parseLine
    rw [h]
    rfl
  have ht2 : (parseLine host now2 line index).timestamp = some now2 := by
    unfold parseLine
    rw [h]
    rfl
  refine ⟨ht, ?_, ?_⟩
  · intro hne
    rw [ht, ht2]
    simp [hne]
  · intro es i hi
    have hget := buildViewEntries_get es i (parseLine host now line index) hi
    have hmem : now ∈ es.filterMap (fun x => x.timestamp) := by
      have hin : parseLine host now line index ∈ es := by
        rw [List.get?_eq_some] at hi
        obtain ⟨hlt, hx⟩ := hi
        exact hx ▸ List.get_mem es _ _
      exact List.mem_filterMap.mpr ⟨parseLine host now line index, hin, ht⟩
    have hbase : ∃ bb, minPair? (es.filterMap (fun x => x.timestamp)) = some bb := by
      cases hl : es.filterMap (fun x => x.timestamp) with
      | nil =>
        rw [hl] at hmem
        exact absurd hmem (by simp)
      | cons t ts => exact ⟨_, rfl⟩
    obtain ⟨bb, hbb⟩ := hbase
    refine ⟨_, hget, ?_, ?_⟩
    · rw [ht, hbb]
      rfl
    · rw [ht]

/-- Witness for C10: a fallback line parsed at time 0 and re-parsed at
time 1. -/
theorem claim_C10_witness :
    (parseLine sampleHost 0 "plain" 0).timestamp = some 0 ∧
    ((0 : Int) ≠ 1 →
      (parseLine sampleHost 0 "plain" 0).timestamp
        ≠ (parseLine sampleHost 1 "plain" 0).timestamp) ∧
    (∃ vm, (buildViewEntries [parseLine sampleHost 0 "plain" 0]).get? 0
        = some vm ∧ vm.relativeToStartMs.isSome ∧ vm.timestamp = some 0) :=
  have h := claim_C10_fallback_wallclock sampleHost 0 1 "plain" 0 rfl
  ⟨h.1, h.2.1, h.2.2 [parseLine sampleHost 0 "plain" 0] 0 rfl⟩

/-- **C7** (counterexample): `relativeToStartMs` is *not* measured
from the first timestamped entry in file order.  With entry 0 at
timestamp 5 and entry 1 at timestamp 3, the spec's reading gives
`5 - 5 = 0` for entry 0, but the code's baseline is the minimum
timestamp (3), producing `2`. -/
theorem claim_C7_counterexample :
    ((buildViewEntries [entryAt5, entryAt3]).get? 0).map
        (fun vm => vm.relativeToStartMs) = some (some 2) ∧
    timeDiff entryAt5.timestamp (firstTimestampInOrder [entryAt5, entryAt3])
        = some 0 ∧
    (some 2 : Option Int) ≠ some 0 := by
  refine ⟨rfl, rfl, by decide⟩

/-- **C7 (amended)**: each view entry's `relativeToStartMs` is its
timestamp minus the *minimum* timestamp over the file's timestamped
entries (equal to the first timestamped entry only when timestamps are
non-decreasing), its `deltaPreviousMs` is its timestamp minus the
timestamp of the immediately preceding timestamped entry, and both
fields are omitted when the entry has no timestamp (`deltaPreviousMs`
also for the first timestamped entry, whose predecessor list is
empty). -/
theorem claim_C7_amended_timing (es : List ParsedLogEntry) (i : Nat)
    (e : ParsedLogEntry) (h : es.get? i = some e) :
    (buildViewEntries es).length = es.length ∧
    (buildViewEntries es).get? i = some
      { index := e.index, badge := e.badge, status := e.status
        timestamp := e.timestamp
        relativeToStartMs :=
          timeDiff e.timestamp (minPair? (es.filterMap (fun x => x.timestamp)))
        deltaPreviousMs := timeDiff e.timestamp (lastTimestampBefore es i)
        tokens := e.tokens, payload := e.payload } :=
  ⟨by rw [buildViewEntries, buildEntriesAux_length],
   buildViewEntries_get es i e h⟩

/-- Witness for the amended C7 on the two-entry file with descending
timestamps. -/
theorem claim_C7_amended_witness :
    (buildViewEntries [entryAt5, entryAt3]).length
        = [entryAt5, entryAt3].length ∧
    (buildViewEntries [entryAt5, entryAt3]).get? 0 = some
      { index := entryAt5.index, badge := entryAt5.badge
        status := entryAt5.status
        timestamp := entryAt5.timestamp
        relativeToStartMs := timeDiff entryAt5.timestamp
          (minPair? ([entryAt5, entryAt3].filterMap (fun x => x.timestamp)))
        deltaPreviousMs := timeDiff entryAt5.timestamp
          (lastTimestampBefore [entryAt5, entryAt3] 0)
        tokens := entryAt5.tokens, payload := entryAt5.payload } :=
  claim_C7_amended_timing [entryAt5, entryAt3] 0 entryAt5 rfl

/-! ## Round-trip lemmas (engine append → viewer re-parse) -/

theorem splitNl_append (s rest : List Char) (h : '\n' ∉ s) :
    splitNl (s ++ '\n' :: rest) = s :: splitNl rest := by
  induction s with
  | nil => simp [splitNl]
  | cons c s ih =>
    have hc : ¬ c = '\n' := fun he => h (he ▸ List.mem_cons_self c s)
    have hs : '\n' ∉ s := fun hm => h (List.mem_cons_of_mem c hm)
    show splitNl (c :: (s ++ '\n' :: rest)) = (c :: s) :: splitNl rest
    simp only [splitNl, if_neg hc, ih hs]

theorem splitNl_flatten (ss : List (List Char)) (h : ∀ s ∈ ss, '\n' ∉ s) :
    splitNl ((ss.map (fun s => s ++ ['\n'])).flatten) = ss ++ [[]] := by
  induction ss with
  | nil => rfl
  | cons s ss ih =>
    have hhead : '\n' ∉ s := h s (List.mem_cons_self s ss)
    have htail : ∀ s2 ∈ ss, '\n' ∉ s2 :=
      fun s2 hs2 => h s2 (List.mem_cons_of_mem s hs2)
    have hassoc : ((s ++ ['\n']) :: ss.map (fun s => s ++ ['\n'])).flatten
        = s ++ '\n' :: (ss.map (fun s => s ++ ['\n'])).flatten := by
      rw [List.flatten_cons, List.append_assoc]
      rfl
    show splitNl (((s ++ ['\n']) :: ss.map (fun s => s ++ ['\n'])).flatten) = _
    rw [hassoc, splitNl_append _ _ hhead, ih htail]
    rfl

theorem trimChars_eq_nil_of_all (l : List Char)
    (h : ∀ c ∈ l, isJsWhitespace c = true) : trimChars l = [] := by
  unfold trimChars
  rw [List.dropWhile_eq_nil_iff.mpr h]
  rfl

theorem trimChars_eq_nil_all (l : List Char) (h : trimChars l = []) :
    ∀ c ∈ l, isJsWhitespace c = true := by
  intro c hc
  have hsplit := List.takeWhile_append_dropWhile (p := isJsWhitespace) (l := l)
  rw [← hsplit] at hc
  rcases List.mem_append.mp hc with hc | hc
  · exact List.mem_takeWhile_imp hc
  · unfold trimChars at h
    have h1 : (l.dropWhile isJsWhitespace).reverse.dropWhile isJsWhitespace
        = [] := by
      have h2 := congrArg List.reverse h
      rw [List.reverse_reverse] at h2
      simpa using h2
    have h3 := List.dropWhile_eq_nil_iff.mp h1
    exact h3 c (List.mem_reverse.mpr hc)

theorem string_mk_data (s : String) : String.mk s.data = s := rfl

theorem enumFrom_map_parse (host : JsonHost) (now : Int)
    (enc : ClaudeJsonMessage → String) :
    ∀ (msgs : List ClaudeJsonMessage) (n : Nat),
      (∀ m ∈ msgs, host.decode (enc m) = some m) →
      ((msgs.map (fun m => (enc m).data)).enumFrom n).map
          (fun p => parseLine host now (String.mk p.2) p.1)
        = (msgs.enumFrom n).map
            (fun p => parseMessage host p.2 p.1 (enc p.2))
  | [], _, _ => rfl
  | m :: rest, n, h4 => by
    have hm : host.decode (enc m) = some m := h4 m (List.mem_cons_self m rest)
    have htail : ∀ m2 ∈ rest, host.decode (enc m2) = some m2 :=
      fun m2 hm2 => h4 m2 (List.mem_cons_of_mem m hm2)
    show (parseLine host now (String.mk ((enc m).data)) n)
        :: ((rest.map (fun m => (enc m).data)).enumFrom (n + 1)).map
            (fun p => parseLine host now (String.mk p.2) p.1)
      = (parseMessage host m n (enc m))
        :: (rest.enumFrom (n + 1)).map
            (fun p => parseMessage host p.2 p.1 (enc p.2))
    rw [enumFrom_map_parse host now enc rest (n + 1) htail, string_mk_data]
    have hline : parseLine host now (enc m) n = parseMessage host m n (enc m) := by
      unfold parseLine
      rw [hm]
    rw [hline]

/-- **C6**: round-trip.  Appending `N` serialized stream messages —
one JSON line each, written by the engine's stdout handler as
`JSON.stringify(message) + '\n'` to a fresh empty file — and re-parsing
the file with the viewer's whole-file re-parse yields exactly `N`
entries, the `i`-th being the parse of the `i`-th appended message.
The hypotheses are the JSON library's contract for the serialized
lines: nonempty, newline-free, trim-stable, and decoded back to the
message they serialize. -/
theorem claim_C6_roundtrip (host : JsonHost) (now : Int)
    (enc : ClaudeJsonMessage → String) (msgs : List ClaudeJsonMessage)
    (h1 : ∀ m ∈ msgs, (enc m).data ≠ [])
    (h2 : ∀ m ∈ msgs, '\n' ∉ (enc m).data)
    (h3 : ∀ m ∈ msgs, trimChars ((enc m).data) = (enc m).data)
    (h4 : ∀ m ∈ msgs, host.decode (enc m) = some m) :
    parseLogFile host now (logContent enc msgs)
      = msgs.enum.map (fun p => parseMessage host p.2 p.1 (enc p.2)) ∧
    (parseLogFile host now (logContent enc msgs)).length = msgs.length := by
  have hcontent : logContent enc msgs
      = ((msgs.map (fun m => (enc m).data)).map (fun s => s ++ ['\n'])).flatten := by
    rw [logContent, List.map_map]
    rfl
  have hsplit : splitNl (logContent enc msgs)
      = msgs.map (fun m => (enc m).data) ++ [[]] := by
    rw [hcontent]
    refine splitNl_flatten _ ?_
    intro s hs
    obtain ⟨m, hm, he⟩ := List.mem_map.mp hs
    exact he ▸ h2 m hm
  have hlines : ((splitNl (logContent enc msgs)).map trimChars).filter
      (fun l => l ≠ []) = msgs.map (fun m => (enc m).data) := by
    rw [hsplit, List.map_append, List.filter_append]
    have hmapeq : (msgs.map (fun m => (enc m).data)).map trimChars
        = msgs.map (fun m => (enc m).data) := by
      rw [List.map_map]
      refine List.map_congr_left ?_
      intro m hm
      exact h3 m hm
    rw [hmapeq]
    have hfs : (msgs.map (fun m => (enc m).data)).filter (fun l => l ≠ [])
        = msgs.map (fun m => (enc m).data) := by
      refine List.filter_eq_self.mpr ?_
      intro s hs
      obtain ⟨m, hm, he⟩ := List.mem_map.mp hs
      simpa using he ▸ h1 m hm
    rw [hfs]
    simp [show trimChars [] = [] from rfl]
  have hmain : parseLogFile host now (logContent enc msgs)
      = msgs.enum.map (fun p => parseMessage host p.2 p.1 (enc p.2)) := by
    cases msgs with
    | nil =>
      show parseLogFile host now [] = []
      rfl
    | cons m0 rest =>
      have hguard : trimChars (logContent enc (m0 :: rest)) ≠ [] := by
        intro hg
        have hall := trimChars_eq_nil_all _ hg
        have hsub : ∀ c ∈ (enc m0).data, isJsWhitespace c = true := by
          intro c hcmem
          refine hall c ?_
          rw [hcontent]
          have hassoc : (((m0 :: rest).map (fun m => (enc m).data)).map
              (fun s => s ++ ['\n'])).flatten
              = (enc m0).data ++ '\n' ::
                ((rest.map (fun m => (enc m).data)).map
                  (fun s => s ++ ['\n'])).flatten := by
            rw [List.map_cons, List.map_cons, List.flatten_cons,
              List.append_assoc]
            rfl
          rw [hassoc]
          exact List.mem_append_left _ hcmem
        have hnil0 : trimChars ((enc m0).data) = [] :=
          trimChars_eq_nil_of_all _ hsub
        rw [h3 m0 (List.mem_cons_self m0 rest)] at hnil0
        exact h1 m0 (List.mem_cons_self m0 rest) hnil0
      unfold parseLogFile
      rw [if_neg hguard, hlines]
      show ((((m0 :: rest).map (fun m => (enc m).data)).enumFrom 0).map
        (fun p => parseLine host now (String.mk p.2) p.1)) = _
      exact enumFrom_map_parse host now enc (m0 :: rest) 0 h4
  refine ⟨hmain, ?_⟩
  rw [hmain, List.length_map, List.enum_length]

/-- Witness for C6: two concrete messages through a concrete
serializer and decoder. -/
theorem claim_C6_witness :
    parseLogFile sampleHost 0
        (logContent sampleEnc [sampleAssistantMsg, sampleSystemMsg])
      = ([sampleAssistantMsg, sampleSystemMsg].enum).map
          (fun p => parseMessage sampleHost p.2 p.1 (sampleEnc p.2)) ∧
    (parseLogFile sampleHost 0
        (logContent sampleEnc [sampleAssistantMsg, sampleSystemMsg])).length
      = [sampleAssistantMsg, sampleSystemMsg].length :=
  claim_C6_roundtrip sampleHost 0 sampleEnc
    [sampleAssistantMsg, sampleSystemMsg]
    (by intro m hm; rcases List.mem_cons.mp hm with h | h
        · subst h; simp [sampleEnc, sampleAssistantMsg]
        · rw [List.mem_singleton.mp h]; simp [sampleEnc, sampleSystemMsg])
    (by intro m hm; rcases List.mem_cons.mp hm with h | h
        · subst h; simp [sampleEnc, sampleAssistantMsg]
        · rw [List.mem_singleton.mp h]; simp [sampleEnc, sampleSystemMsg])
    (by intro m hm; rcases List.mem_cons.mp hm with h | h
        · subst h; rfl
        · rw [List.mem_singleton.mp h]; rfl)
    (by intro m hm; rcases List.mem_cons.mp hm with h | h
        · subst h; rfl
        · rw [List.mem_singleton.mp h]; rfl)

end Jarvis
